import Mathlib

/-!
# Verification of the hierarchical-header query engine

A shallow embedding, in Lean 4, of the core table-processing functions of the
ExcelChatbot repository (`web/backend/core/`): the selection parsers and the
selector/renderer (`extract_df.py`), the row-key normalizer (`preprocess.py`),
the row-tree builder (`metadata.py`), and the table post-processor
(`postprocess.py`), together with theorems settling the specified properties.

Modelling conventions:
* A pandas `DataFrame` with MultiIndex columns is modelled by `DataFrame`:
  an ordered list of column keys (each key a list of per-level labels) and an
  ordered list of rows, each row a list of cells.  A cell is `Option String`
  (`none` models a pandas null / NaN); header labels are plain strings (a NaN
  header label behaves exactly like the string "nan" in every branch of the
  modelled code, so it needs no separate representation).
* Python exceptions are modelled with `Except String`; a function that the
  source allows to raise returns `Except String α`, and an exception that the
  source catches is modelled by handling the corresponding `Option`/branch.
* Python `dict`s (used for selection paths) are association lists in insertion
  order; assignment to an existing key updates the value in place.
* Python string primitives (`strip`, `split`, `lower`, `in`, `int(...)`) are
  re-implemented by structural recursion on the character list of a `String`,
  so that all definitions evaluate inside the kernel.
-/

/-! ## Python string primitives -/

/-- Python `str.strip()`: drop leading and trailing whitespace. -/
def pyStrip (s : String) : String :=
  String.mk
    (((s.data.dropWhile Char.isWhitespace).reverse.dropWhile
      Char.isWhitespace).reverse)

/-- Python `str.lstrip()`: drop leading whitespace. -/
def pyLStrip (s : String) : String :=
  String.mk (s.data.dropWhile Char.isWhitespace)

/-- Python `len(s)`. -/
def pyLen (s : String) : Nat := s.data.length

/-- Python `c in s` for a single character. -/
def pyHasChar (s : String) (c : Char) : Bool := s.data.contains c

/-- Python `s.lower()` (ASCII case folding suffices for the modelled data). -/
def pyLower (s : String) : String := String.mk (s.data.map Char.toLower)

/-- Python `s.startswith(p)`. -/
def pyStartsWith (s p : String) : Bool := p.data.isPrefixOf s.data

/-- Split a character list at every occurrence of `c` (Python
`str.split(c)`: `n` separators produce `n+1` pieces, empty pieces kept). -/
def splitCharList (c : Char) : List Char → List (List Char)
  | [] => [[]]
  | x :: xs =>
    if x = c then [] :: splitCharList c xs
    else
      match splitCharList c xs with
      | [] => [[x]]
      | h :: t => (x :: h) :: t

/-- Python `s.split(c)` for a single-character separator. -/
def pySplit (s : String) (c : Char) : List String :=
  (splitCharList c s.data).map String.mk

/-- Join strings with a single-character separator (inverse of `pySplit`). -/
def strJoin (c : Char) : List String → String
  | [] => ""
  | [s] => s
  | s :: rest => String.mk (s.data ++ c :: (strJoin c rest).data)

/-- Python `str.split(sep, 1)` for a single-character separator: the part
before the first occurrence, and the rest.  Only used on strings known to
contain the separator. -/
def pySplitFirst (c : Char) (s : String) : String × String :=
  let parts := pySplit s c
  ((parts.headD ""), strJoin c parts.tail)

/-- Value of a decimal digit character. -/
def digitVal (c : Char) : Nat := c.toNat - 48

/-- A non-empty run of decimal digits as a number; `none` otherwise. -/
def digitsToNat? (cs : List Char) : Option Nat :=
  if cs ≠ [] ∧ cs.all Char.isDigit then
    some (cs.foldl (fun n c => n * 10 + digitVal c) 0)
  else none

/-- Python `int(s)` on a string: optional surrounding whitespace, optional
sign, then a non-empty run of decimal digits; `none` models the `ValueError`
raised on any other input. -/
def pyInt? (s : String) : Option Int :=
  match (pyStrip s).data with
  | '-' :: ds => (digitsToNat? ds).map (fun n => -(n : Int))
  | '+' :: ds => (digitsToNat? ds).map (fun n => (n : Int))
  | ds => (digitsToNat? ds).map (fun n => (n : Int))

deriving instance DecidableEq for Except

/-- Insertion into a Python `dict` modelled as an association list:
assignment to an existing key replaces its value in place (keeping the key's
position in iteration order); a new key is appended at the end. -/
def dictInsert {α β : Type} [DecidableEq α] (k : α) (v : β) :
    List (α × β) → List (α × β)
  | [] => [(k, v)]
  | (k', v') :: rest =>
    if k' = k then (k, v) :: rest else (k', v') :: dictInsert k v rest

/-! ## The table model -/

/-- A MultiIndex column key: one label per header level (level 0 first). -/
abbrev ColKey := List String

/-- A table with a (possibly multi-level) column axis: `cols` is the ordered
list of column keys, `rows` the ordered data rows, one `Option String` cell
per column (`none` = null). -/
structure DataFrame where
  cols : List ColKey
  rows : List (List (Option String))
deriving DecidableEq

/-- `df.columns.nlevels` for the modelled MultiIndex. -/
def DataFrame.nlevels (df : DataFrame) : Nat := (df.cols.headD []).length

/-- The series of cells of the column at position `j` (`df.iloc[:, j]`). -/
def DataFrame.colAt (df : DataFrame) (j : Nat) : List (Option String) :=
  df.rows.map (fun row => row.getD j none)

/-! ## Selection parsers (`extract_df.py`) -/

/-- A parsed row path: feature name to raw value, in insertion order. -/
abbrev RowPath := List (String × String)

/-- A parsed column path: level number (as produced by `int`) to value. -/
abbrev ColPath := List (Int × String)

/-- The lines the parsers iterate over: `selection.strip().split('\n')`. -/
def selectionLines (s : String) : List String := pySplit (pyStrip s) '\n'

/-- `(len(line) - len(line.lstrip())) // 4`. -/
def indentLevel (line : String) : Nat :=
  (pyLen line - pyLen (pyLStrip line)) / 4

/-- One step of the `parse_row_paths` loop over a line, acting on the state
`(paths, current_path)`. -/
def parseRowStep (st : List RowPath × RowPath) (line : String) :
    List RowPath × RowPath :=
  let (paths, current) := st
  if pyStrip line = "" then st
  else if pyHasChar line ':' then
    let (featureRaw, valueRaw) := pySplitFirst ':' (pyStrip line)
    let feature := pyStrip featureRaw
    let value := pyStrip valueRaw
    if indentLevel line = 0 then
      if current ≠ [] then (paths ++ [current], [(feature, value)])
      else (paths, [(feature, value)])
    else (paths, dictInsert feature value current)
  else st

/-- The loop of `parse_row_paths` over an explicit list of lines, including
the final flush of `current_path`. -/
def parseRowLines (lines : List String) : List RowPath :=
  let (paths, current) := lines.foldl parseRowStep ([], [])
  if current ≠ [] then paths ++ [current] else paths

/-- `parse_row_paths` from `extract_df.py`: parses the indented
`feature: value` block into a list of path dictionaries. -/
def parse_row_paths (row_selection : String) : List RowPath :=
  if pyStrip row_selection = "" then []
  else parseRowLines (selectionLines row_selection)

/-- `int(level_part.split('_')[1])` as an `Option` (`none` = `ValueError`).
The list index `[1]` always exists when `level_part` starts with `level_`. -/
def levelNumOf (level_part : String) : Option Int :=
  pyInt? ((pySplit level_part '_').getD 1 "")

/-- One step of the `parse_col_paths` loop; `int(...)` may raise, so the step
runs in `Except`.  (The source also tracks a `max_level` variable that is
never used afterwards; it is omitted.) -/
def parseColStep (st : List ColPath × ColPath) (line : String) :
    Except String (List ColPath × ColPath) :=
  let (paths, current) := st
  if pyStrip line = "" then pure st
  else if pyHasChar line ':' then
    let (levelRaw, valueRaw) := pySplitFirst ':' (pyStrip line)
    let level_part := pyStrip levelRaw
    let value := pyStrip valueRaw
    if pyStartsWith level_part "level_" then
      match levelNumOf level_part with
      | none => Except.error "ValueError: invalid literal for int"
      | some level_num =>
        if level_num = 1 then
          if current ≠ [] then
            pure (paths ++ [current], [(level_num, value)])
          else pure (paths, [(level_num, value)])
        else pure (paths, dictInsert level_num value current)
    else pure st
  else pure st

/-- The loop of `parse_col_paths` over an explicit list of lines. -/
def parseColLines (lines : List String) : Except String (List ColPath) :=
  match lines.foldlM parseColStep ([], []) with
  | Except.error e => Except.error e
  | Except.ok (paths, current) =>
    if current ≠ [] then Except.ok (paths ++ [current]) else Except.ok paths

/-- `parse_col_paths` from `extract_df.py`: parses the indented
`level_N: value` block into a list of path dictionaries; `int` on the text
after `level_` can raise `ValueError`. -/
def parse_col_paths (col_selection : String) : Except String (List ColPath) :=
  if pyStrip col_selection = "" then pure []
  else parseColLines (selectionLines col_selection)

example : parse_row_paths "" = [] := by decide
example : parse_row_paths "A: x\n    B: y\nA: z" =
    [[("A", "x"), ("B", "y")], [("A", "z")]] := by decide
example : parse_col_paths "level_1: x\n    level_2: y" =
    Except.ok [[((1 : Int), "x"), ((2 : Int), "y")]] := by decide
example : parse_col_paths "level_x: 1" =
    Except.error "ValueError: invalid literal for int" := by decide
example : parse_col_paths "no colon line" = Except.ok [] := by decide

/-! ## Selector / renderer (`extract_df.py`) -/

/-- `search_column_in_multiindex` (MultiIndex branch): scan the columns in
table order and return the first key tuple that contains `column_name` at any
level; `none` if no tuple contains it. -/
def search_column_in_multiindex (df : DataFrame) (column_name : String) :
    Option ColKey :=
  go df.cols
where
  go : List ColKey → Option ColKey
    | [] => none
    | t :: ts => if column_name ∈ t then some t else go ts

/-- Position of a column key in the column axis (first occurrence);
`df[col_tuple]` reads this column. -/
def DataFrame.colIdx (df : DataFrame) (k : ColKey) : Nat :=
  df.cols.indexOf k

/-- The series `df[k]` for a full column key `k`. -/
def DataFrame.series (df : DataFrame) (k : ColKey) : List (Option String) :=
  df.colAt (df.colIdx k)

/-- `series.isin(values)`: a null cell never matches. -/
def pyIsin (s : List (Option String)) (values : List String) : List Bool :=
  s.map (fun cell =>
    match cell with
    | some x => values.contains x
    | none => false)

/-- The list of values an entry's raw value stands for: comma-separated
values are split and trimmed, otherwise the single value itself. -/
def splitValues (value : String) : List String :=
  if pyHasChar value ',' then (pySplit value ',').map pyStrip
  else [value]

/-- Elementwise `&` of two boolean series. -/
def andSeries (a b : List Bool) : List Bool := List.zipWith (· && ·) a b

/-- Elementwise `|` of two boolean series. -/
def orSeries (a b : List Bool) : List Bool := List.zipWith (· || ·) a b

/-- The boolean condition contributed by one `feature: value` entry:
`none` when the entry is skipped (value case-insensitively "undefined", or
feature not found in any column tuple). -/
def entryCond (df : DataFrame) (e : String × String) : Option (List Bool) :=
  if pyLower e.2 = "undefined" then none
  else
    match search_column_in_multiindex df e.1 with
    | none => none
    | some col_tuple => some (pyIsin (df.series col_tuple) (splitValues e.2))

/-- Accumulate the value of `f` when it contributes one (the shape of every
"append to a list if present" loop of the source). -/
def optStep {a b : Type} (f : a → Option b) (acc : List b) (x : a) : List b :=
  match f x with
  | none => acc
  | some y => acc ++ [y]

/-- The `conditions_for_path` loop of `create_row_condition` followed by the
AND-fold: `none` when no entry of the path contributes a condition. -/
def pathCond (df : DataFrame) (path : RowPath) : Option (List Bool) :=
  match path.foldl (optStep (entryCond df)) [] with
  | [] => none
  | c :: rest => some (rest.foldl andSeries c)

/-- `create_row_condition` from `extract_df.py`: the boolean row mask for a
list of parsed row paths (per path, AND of the conditions of its entries;
across paths, OR; all-true when no path contributes a condition). -/
def create_row_condition (df : DataFrame) (row_paths : List RowPath) :
    List Bool :=
  if row_paths.isEmpty then List.replicate df.rows.length true
  else
    match row_paths.foldl (optStep (pathCond df)) [] with
    | [] => List.replicate df.rows.length true
    | c :: rest => rest.foldl orSeries c

/-- Python list indexing `t[i]`, including negative indices from the end;
`none` models the `IndexError` raised when out of range. -/
def pyIndex (t : List String) (i : Int) : Option String :=
  let n : Int := t.length
  let j := if i < 0 then i + n else i
  if 0 ≤ j ∧ j < n then some (t.getD j.toNat "") else none

/-- The per-column matching loop of `create_column_tuples`: every
`level_num: value` item of the path with `level_num <= max_levels` must agree
with the key at `level_num - 1`; an out-of-range index raises. -/
def matchesColPath (maxLevels : Int) (t : ColKey) :
    ColPath → Except String Bool
  | [] => Except.ok true
  | (level_num, value) :: rest =>
    if level_num ≤ maxLevels then
      let level_index : Int := level_num - 1
      if level_index < (t.length : Int) then
        match pyIndex t level_index with
        | none => Except.error "IndexError: tuple index out of range"
        | some actual_val =>
          if value ≠ actual_val then Except.ok false
          else matchesColPath maxLevels t rest
      else Except.ok false
    else matchesColPath maxLevels t rest

/-- `create_column_tuples` from `extract_df.py` (MultiIndex branch): for each
path, append every column of the table whose key matches it. -/
def create_column_tuples (df : DataFrame) (col_paths : List ColPath) :
    Except String (List ColKey) :=
  if col_paths.isEmpty then Except.ok []
  else
    let max_levels : Int := df.nlevels
    col_paths.foldlM (fun acc path =>
      df.cols.foldlM (fun acc2 col_tuple => do
        let m ← matchesColPath max_levels col_tuple path
        pure (if m then acc2 ++ [col_tuple] else acc2)) acc) []

/-- The feature-row resolution loop of `render_filtered_dataframe`: each
feature row name is resolved by the any-level search, and dropped when the
search fails (or returns a falsy/empty tuple). -/
def resolveFeatureRows (df : DataFrame) (feature_rows : List String) :
    List ColKey :=
  feature_rows.foldl
    (optStep (fun feature_row =>
      match search_column_in_multiindex df feature_row with
      | some feature_tuple =>
        if feature_tuple ≠ [] then some feature_tuple else none
      | none => none)) []

/-- `df[mask]`: keep the rows whose mask entry is true. -/
def filterRows (df : DataFrame) (mask : List Bool) : DataFrame :=
  { cols := df.cols,
    rows := ((df.rows.zip mask).filter (fun rb => rb.2)).map (fun rb => rb.1) }

/-- `df[list_of_keys]`: project onto the given column keys, in that order. -/
def selectColumns (df : DataFrame) (ks : List ColKey) : DataFrame :=
  { cols := ks,
    rows := df.rows.map (fun row => ks.map (fun k => row.getD (df.colIdx k) none)) }

/-- `render_filtered_dataframe` from `extract_df.py`: parse both selections,
filter rows by the row mask, then project onto the feature-row columns
followed by the selected columns (all columns when that list is empty). -/
def render_filtered_dataframe (df : DataFrame)
    (row_selection col_selection : String) (feature_rows : List String) :
    Except String DataFrame := do
  let row_paths := parse_row_paths row_selection
  let col_paths ← parse_col_paths col_selection
  let row_condition := create_row_condition df row_paths
  let row_filtered_df := filterRows df row_condition
  let column_tuples ← create_column_tuples df col_paths
  let feature_row_tuples := resolveFeatureRows df feature_rows
  let all_columns := feature_row_tuples ++ column_tuples
  if all_columns ≠ [] then pure (selectColumns row_filtered_df all_columns)
  else pure row_filtered_df

/-! ## Row-key normalizer (`preprocess.py`) -/

/-- Positions of the columns selected by `df[name]` for a plain string name
on a MultiIndex column axis (partial selection by the level-0 label). -/
def DataFrame.level0Matches (df : DataFrame) (name : String) : List Nat :=
  (List.range df.cols.length).filter
    (fun j => (df.cols.getD j []).head? = some name)

/-- First position selected by `df[name]` (the column `df[name].iloc[:, 0]`
reads); `none` models the `KeyError` raised when no column matches. -/
def DataFrame.findLevel0 (df : DataFrame) (name : String) : Option Nat :=
  (List.range df.cols.length).find?
    (fun j => (df.cols.getD j []).head? = some name)

/-- Replace column `j` with the given cell values. -/
def DataFrame.setCol (df : DataFrame) (j : Nat) (vals : List (Option String)) :
    DataFrame :=
  { cols := df.cols, rows := List.zipWith (fun row v => row.set j v) df.rows vals }

/-- `df.loc[condition, name] = fill`: on every row where the condition holds,
overwrite every column whose level-0 label is `name` with `fill`. -/
def DataFrame.setWhere (df : DataFrame) (name : String) (condition : List Bool)
    (fill : String) : DataFrame :=
  { cols := df.cols,
    rows := List.zipWith
      (fun row b =>
        if b then
          (List.range row.length).map (fun j =>
            if (df.cols.getD j []).head? = some name then some fill
            else row.getD j none)
        else row)
      df.rows condition }

/-- One iteration of the `fill_undefined_sequentially` loop for the adjacent
pair `(col_current_id, col_next_id)`: where the current column is non-null
and the next column is null, write the fill value into the next column.
(The condition reads the first sub-column of each selection, `[:, 0]`.) -/
def fillStep (fill_value : String) (df : DataFrame)
    (col_current_id col_next_id : String) : Except String DataFrame :=
  match df.findLevel0 col_current_id, df.findLevel0 col_next_id with
  | some jc, some jn =>
    let condition_to_fill :=
      List.zipWith (fun a b => a.isSome && b.isNone) (df.colAt jc) (df.colAt jn)
    Except.ok (df.setWhere col_next_id condition_to_fill fill_value)
  | _, _ => Except.error "KeyError"

/-- `fill_undefined_sequentially` from `preprocess.py`: run `fillStep` over
every adjacent pair of the ordered column-name list. -/
def fill_undefined_sequentially (df_input : DataFrame)
    (column_names_list : List String) (fill_value : String := "Undefined") :
    Except String DataFrame :=
  (column_names_list.zip column_names_list.tail).foldlM
    (fun df p => fillStep fill_value df p.1 p.2) df_input

/-- Forward fill of one cell series: each null takes the last non-null value
above it (leading nulls stay null). -/
def ffillList : List (Option String) → Option String → List (Option String)
  | [], _ => []
  | c :: cs, last =>
    match c with
    | some v => some v :: ffillList cs (some v)
    | none => last :: ffillList cs last

/-- `df[name] = df[name].ffill()`: forward-fill every column whose level-0
label is `name`; `KeyError` when no column matches. -/
def ffillColumns (df : DataFrame) (name : String) : Except String DataFrame :=
  if (df.level0Matches name).isEmpty then Except.error "KeyError"
  else
    Except.ok ((df.level0Matches name).foldl
      (fun d j => d.setCol j (ffillList (d.colAt j) none)) df)

/-- `forward_fill_column_nans` from `preprocess.py` (the input is already a
list of names; the source's string/iterable normalisation is identity then). -/
def forward_fill_column_nans (input_df : DataFrame)
    (columns_to_process_list : List String) : Except String DataFrame :=
  columns_to_process_list.foldlM ffillColumns input_df

/-! ## Row-tree builder (`metadata.py`) -/

/-- A Python value built out of dicts and lists of strings, as returned by
`convert_df_rows_to_nested_dict`: either a list of strings or a dict in
insertion order. -/
inductive PyTree where
  | plist : List String → PyTree
  | pmap : List (String × PyTree) → PyTree

/-- `isinstance(v, dict) and not v`. -/
def PyTree.isEmptyDict : PyTree → Bool
  | .pmap [] => true
  | _ => false

mutual

/-- `_is_redundant_undefined_child` from `metadata.py`: an empty structure is
redundant; a list is redundant when all items equal the label; a dict is
redundant when every key equals the label and every child is redundant. -/
def _is_redundant_undefined_child (child_structure : PyTree)
    (current_undefined_label : String) : Bool :=
  match child_structure with
  | .plist items =>
    if items.isEmpty then true
    else items.all (fun item => item = current_undefined_label)
  | .pmap entries =>
    if entries.isEmpty then true
    else redundantEntries entries current_undefined_label

/-- The dict loop of `_is_redundant_undefined_child`, with its early
`return False` exits. -/
def redundantEntries (entries : List (String × PyTree))
    (current_undefined_label : String) : Bool :=
  match entries with
  | [] => true
  | (key, deeper_structure) :: rest =>
    if key ≠ current_undefined_label then false
    else if !(_is_redundant_undefined_child deeper_structure
        current_undefined_label) then false
    else redundantEntries rest current_undefined_label

end

/-- `series.dropna().unique()`: first-occurrence order of the non-null
values. -/
def pyUnique (l : List String) : List String :=
  l.foldl (fun acc x => if x ∈ acc then acc else acc ++ [x]) []

/-- `_recursive_build` of `convert_df_rows_to_nested_dict`, recursing on the
remaining hierarchy columns.  A missing column name raises `KeyError` in the
source, which the source catches and turns into an empty dict (a plain string
reference never equals a tuple key, so the fallback membership test fails). -/
def convertRowsBuild (undefined_label : String) :
    List String → DataFrame → Except String PyTree
  | [], _ => Except.ok (.pmap [])
  | name :: rest, df =>
    match df.findLevel0 name with
    | none => Except.ok (.pmap [])
    | some j =>
      if df.rows.isEmpty then Except.ok (.pmap [])
      else do
        let series := df.colAt j
        let unique_vals := pyUnique (series.filterMap id)
        let temp ← unique_vals.mapM (fun val => do
          let child ← convertRowsBuild undefined_label rest
            (filterRows df (series.map (fun c => c = some val)))
          pure (val, child))
        let final := temp.filter (fun e =>
          !(e.1 = undefined_label &&
            _is_redundant_undefined_child e.2 undefined_label))
        if !final.isEmpty && final.all (fun e => e.2.isEmptyDict) then
          pure (.plist (final.map (fun e => e.1)))
        else pure (.pmap final)

/-- `convert_df_rows_to_nested_dict` from `metadata.py`. -/
def convert_df_rows_to_nested_dict (df_input : DataFrame)
    (hierarchy_columns_list : List String)
    (undefined_label : String := "Undefined") : Except String PyTree :=
  if hierarchy_columns_list.isEmpty then Except.ok (.pmap [])
  else convertRowsBuild undefined_label hierarchy_columns_list df_input

/-! ## Acronym generation (`postprocess.py`) -/

/-- Split a character list at every character satisfying `p`. -/
def splitPredList (p : Char → Bool) : List Char → List (List Char)
  | [] => [[]]
  | x :: xs =>
    if p x then [] :: splitPredList p xs
    else
      match splitPredList p xs with
      | [] => [[x]]
      | h :: t => (x :: h) :: t

/-- The per-word step of `create_acronym`: a pure number is kept, a word
containing digits becomes its first letter followed by all its digits, a pure
word contributes its first letter. -/
def acronymWord (word : List Char) : List Char :=
  match word with
  | [] => []
  | c :: cs =>
    if (c :: cs).all Char.isDigit then c :: cs
    else if (c :: cs).any Char.isDigit then
      let letters := (c :: cs).filter (fun ch => !ch.isDigit)
      let numbers := (c :: cs).filter Char.isDigit
      match letters with
      | [] => numbers
      | l :: _ => l :: numbers
    else [c]

/-- `TablePostProcessor.create_acronym` from `postprocess.py`: strip the
text, split it on whitespace runs, and join the per-word acronym pieces. -/
def create_acronym (text : String) : String :=
  String.mk
    ((((splitPredList Char.isWhitespace (pyStrip text).data).filter
      (fun w => w ≠ [])).map acronymWord).flatten)

example : create_acronym "chi phí" = "cp" := by decide
example : create_acronym "Học Kì 1" = "HK1" := by decide
example : create_acronym "năm 2024" = "n2024" := by decide

/-! ## Header matrix reconstruction (`postprocess.py`) -/

/-- Number of header levels of a column axis. -/
def nlevelsOf (cols : List ColKey) : Nat := (cols.headD []).length

/-- `str(multiindex_columns.get_level_values(level)[i])` (labels are strings
in the model, so `str` is the identity). -/
def pyLabel (cols : List ColKey) (level i : Nat) : String :=
  (cols.getD i []).getD level ""

/-- `str(v) if not pd.isna(v) and str(v) != 'nan' else ""`. -/
def normLabel (s : String) : String := if s = "nan" then "" else s

/-- `TablePostProcessor.calculate_rowspan`: a cell spans down to the bottom
level exactly when every deeper level at its position is the sentinel
`"Header"`; the last level never spans. -/
def calculate_rowspan (cols : List ColKey) (level position : Nat)
    (_current_value : String) : Nat :=
  let n_levels := nlevelsOf cols
  if level = n_levels - 1 then 1
  else
    let all_lower_are_headers :=
      (List.range' (level + 1) (n_levels - (level + 1))).all
        (fun lower_level =>
          normLabel (pyLabel cols lower_level position) = "Header")
    if all_lower_are_headers then n_levels - level else 1

/-- The `while` loop of `calculate_intelligent_colspan` counting consecutive
positions with the same label at this level that are not already covered;
the fuel argument only bounds the iteration count (`cols.length` suffices). -/
def consecEndAux (cols : List ColKey) (level : Nat) (current_value_str : String)
    (covered : List (Nat × Nat)) : Nat → Nat → Nat
  | 0, consecutive_end => consecutive_end
  | fuel + 1, consecutive_end =>
    if consecutive_end < cols.length ∧
        pyLabel cols level consecutive_end = current_value_str ∧
        (level, consecutive_end) ∉ covered then
      consecEndAux cols level current_value_str covered fuel
        (consecutive_end + 1)
    else consecutive_end

/-- `TablePostProcessor.calculate_intelligent_colspan`: merge a run of equal
labels only when the deeper levels vary across the run, or are entirely the
sentinel `"Header"`. -/
def calculate_intelligent_colspan (cols : List ColKey)
    (level start_position : Nat) (current_value_str : String)
    (covered : List (Nat × Nat)) : Nat :=
  let n_levels := nlevelsOf cols
  if level = n_levels - 1 then 1
  else
    let consecutive_end := consecEndAux cols level current_value_str covered
      cols.length (start_position + 1)
    let potential_colspan := consecutive_end - start_position
    if potential_colspan = 1 then 1
    else
      let lower_levels_vary :=
        (List.range' (level + 1) (n_levels - (level + 1))).any
          (fun lower_level =>
            (List.range' (start_position + 1)
              (consecutive_end - (start_position + 1))).any
              (fun pos =>
                pyLabel cols lower_level pos ≠
                  pyLabel cols lower_level start_position))
      if lower_levels_vary then potential_colspan
      else
        let all_lower_are_headers :=
          (List.range' (level + 1) (n_levels - (level + 1))).all
            (fun lower_level =>
              (List.range' start_position
                (consecutive_end - start_position)).all
                (fun pos => pyLabel cols lower_level pos = "Header"))
        if all_lower_are_headers then potential_colspan else 1

/-- One emitted header cell, as in the source's cell dictionaries. -/
structure HeaderCell where
  text : String
  colspan : Nat
  rowspan : Nat
  position : Nat
  level : Nat
deriving DecidableEq

/-- The precomputed first-pass `rowspan_matrix`. -/
def rowspanMatrix (cols : List ColKey) : List (List Nat) :=
  (List.range (nlevelsOf cols)).map (fun level =>
    (List.range cols.length).map (fun i =>
      calculate_rowspan cols level i (normLabel (pyLabel cols level i))))

/-- `rowspan_matrix[level][i]`. -/
def rowspanAt (cols : List ColKey) (level i : Nat) : Nat :=
  ((rowspanMatrix cols).getD level []).getD i 0

/-- The cell emitted by `build_header_matrix` at `(level, i)` given the
current covered set. -/
def mkHeaderCell (cols : List ColKey) (level i : Nat)
    (covered : List (Nat × Nat)) : HeaderCell :=
  let current_value_str := normLabel (pyLabel cols level i)
  { text := current_value_str,
    colspan := calculate_intelligent_colspan cols level i current_value_str
      covered,
    rowspan := rowspanAt cols level i,
    position := i,
    level := level }

/-- The `(r, c)` pairs a cell adds to `covered_positions`
(`r` from `level + 1` to `level + rowspan - 1`, clipped at `n_levels`). -/
def marksList (cols : List ColKey) (cell : HeaderCell) : List (Nat × Nat) :=
  ((List.range' (cell.level + 1) (cell.rowspan - 1)).filter
    (fun r => r < nlevelsOf cols)).flatMap
    (fun r => (List.range' cell.position cell.colspan).map (fun c => (r, c)))

/-- The cells emitted by the per-level `while` loop of `build_header_matrix`
from position `i` with the given covered set. -/
def scanCells (cols : List ColKey) (level : Nat) :
    Nat → Nat → List (Nat × Nat) → List HeaderCell
  | 0, _, _ => []
  | fuel + 1, i, covered =>
    if i < cols.length then
      if (level, i) ∈ covered then scanCells cols level fuel (i + 1) covered
      else
        let cell := mkHeaderCell cols level i covered
        cell :: scanCells cols level fuel (i + cell.colspan)
          (covered ++ marksList cols cell)
    else []

/-- The covered set left behind by the same per-level loop. -/
def scanCov (cols : List ColKey) (level : Nat) :
    Nat → Nat → List (Nat × Nat) → List (Nat × Nat)
  | 0, _, covered => covered
  | fuel + 1, i, covered =>
    if i < cols.length then
      if (level, i) ∈ covered then scanCov cols level fuel (i + 1) covered
      else
        let cell := mkHeaderCell cols level i covered
        scanCov cols level fuel (i + cell.colspan)
          (covered ++ marksList cols cell)
    else covered

/-- The loop of `build_header_matrix` over the levels. -/
def buildLevels (cols : List ColKey) :
    Nat → Nat → List (Nat × Nat) → List (List HeaderCell)
  | 0, _, _ => []
  | k + 1, level, covered =>
    scanCells cols level cols.length 0 covered ::
      buildLevels cols k (level + 1) (scanCov cols level cols.length 0 covered)

/-- `TablePostProcessor.build_header_matrix` from `postprocess.py`. -/
def build_header_matrix (cols : List ColKey) : List (List HeaderCell) :=
  buildLevels cols (nlevelsOf cols) 0 []

/-- A cell covers the grid point `(level, pos)` when the point lies in its
`[position, position + colspan) x [level, level + rowspan)` range. -/
def coversCell (cell : HeaderCell) (level pos : Nat) : Bool :=
  decide (cell.level ≤ level) && decide (level < cell.level + cell.rowspan) &&
    decide (cell.position ≤ pos) && decide (pos < cell.position + cell.colspan)

/-- How many emitted cells of a header matrix cover a given grid point. -/
def coverCount (matrix : List (List HeaderCell)) (level pos : Nat) : Nat :=
  (matrix.flatten.filter (fun cell => coversCell cell level pos)).length

example :
    build_header_matrix [["A", "Header"], ["B", "x"], ["B", "y"]] =
      [[⟨"A", 1, 2, 0, 0⟩, ⟨"B", 2, 1, 1, 0⟩],
       [⟨"x", 1, 1, 1, 1⟩, ⟨"y", 1, 1, 2, 1⟩]] := by decide

example : coverCount (build_header_matrix [["A", "Header"], ["B", "x"], ["B", "y"]]) 1 0 = 1 := by decide

/-! ## Generic fold lemmas -/

theorem foldl_append_filterMap {α β : Type} (f : α → Option β) (l : List α)
    (acc : List β) :
    l.foldl (optStep f) acc = acc ++ l.filterMap f := by
  induction l generalizing acc with
  | nil => simp
  | cons x xs ih =>
    cases h : f x <;> simp [List.foldl_cons, optStep, h, ih, List.filterMap_cons]

theorem foldl_append_filter {α : Type} (p : α → Bool) (l : List α)
    (acc : List α) :
    l.foldl (fun a x => if p x then a ++ [x] else a) acc = acc ++ l.filter p := by
  induction l generalizing acc with
  | nil => simp
  | cons x xs ih =>
    by_cases h : p x <;> simp [List.foldl_cons, h, ih, List.filter_cons]

theorem foldl_append_flatMap {α β : Type} (g : α → List β) (l : List α)
    (acc : List β) :
    l.foldl (fun a x => a ++ g x) acc = acc ++ l.flatMap g := by
  induction l generalizing acc with
  | nil => simp
  | cons x xs ih => simp [List.foldl_cons, ih]

/-! ## C9: acronym generation -/

/-- C9, counterexample: the claim maps `"năm 2024"` to `"N2024"`, but
`create_acronym` preserves the case of the first letter, and `"năm"` starts
with a lower-case letter: the actual output is `"n2024"`. -/
theorem C9_counterexample :
    create_acronym "năm 2024" = "n2024" ∧ create_acronym "năm 2024" ≠ "N2024" := by
  constructor <;> decide

/-- C9 (amended): `create_acronym` maps `"chi phí"` to `"cp"`, `"Chi Phí"` to
`"CP"`, `"cấp 1"` to `"c1"`, `"năm 2024"` to `"n2024"` and `"Năm 2024"` to
`"N2024"`: for each word the first letter is taken with its case preserved,
and numeric runs are kept intact and attached to the preceding letter. -/
theorem C9_acronym_table :
    create_acronym "chi phí" = "cp" ∧ create_acronym "Chi Phí" = "CP" ∧
    create_acronym "cấp 1" = "c1" ∧ create_acronym "năm 2024" = "n2024" ∧
    create_acronym "Năm 2024" = "N2024" := by
  refine ⟨?_, ?_, ?_, ?_, ?_⟩ <;> decide


/-! ## C4: parser leniency -/

theorem except_pure_eq_ok {e a : Type} (x : a) :
    (pure x : Except e a) = Except.ok x := rfl

/-- A line that is neither blank nor colon-free (the lines the parsers act
on; all others are skipped). -/
def keepLine (l : String) : Bool :=
  !(decide (pyStrip l = "")) && pyHasChar l ':'

/-- A line is unproblematic for `parse_col_paths` when, if it is non-blank,
contains a colon and its key starts with `level_`, the text after the first
underscore of the key parses as an integer. -/
abbrev colLineOK (l : String) : Prop :=
  pyStrip l ≠ "" → pyHasChar l ':' = true →
    pyStartsWith (pyStrip (pySplitFirst ':' (pyStrip l)).1) "level_" = true →
    (levelNumOf (pyStrip (pySplitFirst ':' (pyStrip l)).1)).isSome

theorem parseRowStep_skip (st : List RowPath × RowPath) (l : String)
    (h : keepLine l = false) : parseRowStep st l = st := by
  rcases st with ⟨paths, current⟩
  by_cases hb : pyStrip l = ""
  · simp [parseRowStep, hb]
  · have hc : pyHasChar l ':' = false := by
      revert h; simp [keepLine, hb]
    simp [parseRowStep, hb, hc]

theorem parseColStep_skip (st : List ColPath × ColPath) (l : String)
    (h : keepLine l = false) : parseColStep st l = pure st := by
  rcases st with ⟨paths, current⟩
  by_cases hb : pyStrip l = ""
  · simp [parseColStep, hb]
  · have hc : pyHasChar l ':' = false := by
      revert h; simp [keepLine, hb]
    simp [parseColStep, hb, hc]

theorem parseColStep_ok (st : List ColPath × ColPath) (l : String)
    (h : colLineOK l) : ∃ st', parseColStep st l = Except.ok st' := by
  rcases st with ⟨paths, current⟩
  by_cases hb : pyStrip l = ""
  · exact ⟨(paths, current), by simp [parseColStep, hb, except_pure_eq_ok]⟩
  · by_cases hc : pyHasChar l ':' = true
    · by_cases hs :
        pyStartsWith (pyStrip (pySplitFirst ':' (pyStrip l)).1) "level_" = true
      · rcases hoi : levelNumOf (pyStrip (pySplitFirst ':' (pyStrip l)).1)
          with _ | n
        · have := h hb hc hs
          rw [hoi] at this
          simp at this
        · by_cases h1 : n = 1
          · by_cases h2 : current = []
            · exact ⟨_, by simp [parseColStep, hb, hc, hs, hoi, h1, h2, except_pure_eq_ok]; rfl⟩
            · exact ⟨_, by simp [parseColStep, hb, hc, hs, hoi, h1, h2, except_pure_eq_ok]; rfl⟩
          · exact ⟨_, by simp [parseColStep, hb, hc, hs, hoi, h1, except_pure_eq_ok]; rfl⟩
      · exact ⟨(paths, current), by simp [parseColStep, hb, hc, hs, except_pure_eq_ok]⟩
    · exact ⟨(paths, current), by simp [parseColStep, hb, hc, except_pure_eq_ok]⟩

theorem parseColFold_ok (lines : List String)
    (h : ∀ l ∈ lines, colLineOK l) :
    ∀ st, ∃ st', lines.foldlM parseColStep st = Except.ok st' := by
  induction lines with
  | nil => intro st; exact ⟨st, rfl⟩
  | cons l ls ih =>
    intro st
    obtain ⟨st1, h1⟩ := parseColStep_ok st l (h l (by simp))
    obtain ⟨st', h2⟩ := ih (fun x hx => h x (by simp [hx])) st1
    refine ⟨st', ?_⟩
    rw [List.foldlM_cons, h1]
    exact h2

theorem parseColLines_ok (lines : List String)
    (h : ∀ l ∈ lines, colLineOK l) :
    ∃ ps, parseColLines lines = Except.ok ps := by
  obtain ⟨⟨paths, current⟩, hst'⟩ := parseColFold_ok lines h ([], [])
  by_cases hcur : current = []
  · exact ⟨paths, by simp [parseColLines, hst', hcur]⟩
  · exact ⟨paths ++ [current], by simp [parseColLines, hst', hcur]⟩

/-- C4, counterexample: a line containing a colon whose key starts with
`level_` but does not continue with an integer makes `parse_col_paths` raise
`ValueError` (from `int(level_part.split('_')[1])`) instead of being
skipped. -/
theorem C4_counterexample :
    parse_col_paths "level_x: 1" =
      Except.error "ValueError: invalid literal for int" := by decide

/-- C4 (amended): `parse_row_paths` always returns a list of path
dictionaries without raising, skipping blank lines and lines without a colon,
and empty or all-whitespace input yields the empty list for both parsers;
`parse_col_paths` likewise skips blank lines and lines without a colon (and
colon lines whose key does not start with `level_`), and returns a list
without raising whenever every line whose key starts with `level_` continues
with a valid integer literal after the first underscore — but raises
`ValueError` otherwise. -/
theorem C4_parser_leniency :
    (∀ s : String, pyStrip s = "" →
      parse_row_paths s = [] ∧ parse_col_paths s = Except.ok []) ∧
    (∀ lines : List String,
      parseRowLines lines = parseRowLines (lines.filter keepLine)) ∧
    (∀ lines : List String,
      parseColLines lines = parseColLines (lines.filter keepLine)) ∧
    (∀ s : String, (∀ l ∈ selectionLines s, colLineOK l) →
      ∃ ps, parse_col_paths s = Except.ok ps) := by
  refine ⟨?_, ?_, ?_, ?_⟩
  · intro s hs
    exact ⟨by simp [parse_row_paths, hs], by simp [parse_col_paths, hs, except_pure_eq_ok]⟩
  · intro lines
    suffices h : ∀ st, lines.foldl parseRowStep st =
        (lines.filter keepLine).foldl parseRowStep st by
      simp [parseRowLines, h ([], [])]
    induction lines with
    | nil => intro st; rfl
    | cons l ls ih =>
      intro st
      cases hk : keepLine l
      · simp [List.filter_cons, hk, List.foldl_cons,
          parseRowStep_skip st l hk, ih]
      · simp [List.filter_cons, hk, List.foldl_cons, ih]
  · intro lines
    suffices h : ∀ st, lines.foldlM parseColStep st =
        (lines.filter keepLine).foldlM parseColStep st by
      simp [parseColLines, h ([], [])]
    induction lines with
    | nil => intro st; rfl
    | cons l ls ih =>
      intro st
      cases hk : keepLine l
      · rw [List.filter_cons, if_neg (by simp [hk]), List.foldlM_cons,
          parseColStep_skip st l hk]
        exact ih st
      · rw [List.filter_cons, if_pos (by simp [hk]), List.foldlM_cons,
          List.foldlM_cons]
        cases hp : parseColStep st l with
        | error e => rfl
        | ok st1 => exact ih st1
  · intro s hs
    by_cases h0 : pyStrip s = ""
    · exact ⟨[], by simp [parse_col_paths, h0, except_pure_eq_ok]⟩
    · obtain ⟨ps, hps⟩ := parseColLines_ok (selectionLines s) hs
      exact ⟨ps, by simp [parse_col_paths, h0, hps]⟩

/-- C4, witness: the amended theorem applied at concrete inputs. -/
theorem C4_witness :
    (parse_row_paths "  " = [] ∧ parse_col_paths "  " = Except.ok []) ∧
    (∃ ps, parse_col_paths "level_1: v\n\nno colon" = Except.ok ps) :=
  ⟨C4_parser_leniency.1 "  " (by decide),
   C4_parser_leniency.2.2.2 "level_1: v\n\nno colon" (by decide)⟩

theorem except_bind_ok {e a b : Type} (x : a) (f : a → Except e b) :
    (Except.ok x >>= f) = f x := rfl

theorem except_bind_error {e a b : Type} (err : e) (f : a → Except e b) :
    ((Except.error err : Except e a) >>= f) = Except.error err := rfl

/-! ## C3: missing hierarchy column -/

/-- C3, counterexample: with a table whose only column is `("A", "Header")`
and hierarchy column list `["B"]`, the lookup of `"B"` raises `KeyError`
inside the builder, but the builder catches it and returns the empty mapping
(`Except.ok`, not an error): no exception propagates. -/
theorem C3_counterexample :
    convert_df_rows_to_nested_dict
      { cols := [["A", "Header"]], rows := [[some "x"]] } ["B"] "Undefined" =
      Except.ok (PyTree.pmap []) := by
  rfl

/-- C3 (amended): when a configured hierarchy column name is absent from the
table's columns, the Row-Tree Builder catches the underlying lookup failure
(`except KeyError`) and silently falls back to an empty mapping for that
branch; in particular, a missing first hierarchy column yields the empty
tree, and nothing is raised. -/
theorem C3_missing_column (df : DataFrame) (rest : List String)
    (label name : String)
    (h : ∀ k ∈ df.cols, k.head? ≠ some name) :
    convert_df_rows_to_nested_dict df (name :: rest) label =
      Except.ok (PyTree.pmap []) := by
  have hfind : df.findLevel0 name = none := by
    rw [DataFrame.findLevel0, List.find?_eq_none]
    intro j hj
    simp only [List.mem_range] at hj
    have hmem : df.cols.getD j [] ∈ df.cols := by
      rw [List.getD_eq_getElem _ _ hj]
      exact List.getElem_mem hj
    simpa using h (df.cols.getD j []) hmem
  simp [convert_df_rows_to_nested_dict, convertRowsBuild, hfind]

/-- C3, witness: the amended theorem applied at a concrete table. -/
theorem C3_witness :
    convert_df_rows_to_nested_dict
      { cols := [["A", "Header"], ["C", "Header"]], rows := [[some "x", none]] }
      ["B", "C"] "Undefined" = Except.ok (PyTree.pmap []) :=
  C3_missing_column
    { cols := [["A", "Header"], ["C", "Header"]], rows := [[some "x", none]] }
    ["C"] "Undefined" "B" (by decide)

/-! ## C5: final projection -/

theorem selectColumns_cols (df : DataFrame) (ks : List ColKey) :
    (selectColumns df ks).cols = ks := rfl

theorem filterRows_cols (df : DataFrame) (mask : List Bool) :
    (filterRows df mask).cols = df.cols := rfl

/-- C5, counterexample: with feature row `"A"` resolved and an empty column
selection (no Column Paths), the output keeps only the feature-row column —
column `("B", "Header")` of the row-filtered table is dropped, refuting the
all-columns fallback as claimed. -/
theorem C5_counterexample :
    parse_col_paths "" = Except.ok [] ∧
    render_filtered_dataframe
      { cols := [["A", "Header"], ["B", "Header"]],
        rows := [[some "1", some "2"]] } "" "" ["A"] =
      Except.ok { cols := [["A", "Header"]], rows := [[some "1"]] } ∧
    (["B", "Header"] : ColKey) ∈
      ([["A", "Header"], ["B", "Header"]] : List ColKey) ∧
    (["B", "Header"] : ColKey) ∉ ([["A", "Header"]] : List ColKey) := by
  exact ⟨by decide, by decide, by decide, by decide⟩

/-- C5 (amended): whenever `render_filtered_dataframe` returns a table, its
columns are the resolved Feature Row Columns (unresolvable names silently
skipped), in their given order, prepended before the selected data columns;
the row-filtered table is returned with all its columns only when that
combined list is empty (no feature row resolved and no column selected). -/
theorem C5_projection (df : DataFrame) (rs cs : String) (frs : List String)
    (out : DataFrame)
    (h : render_filtered_dataframe df rs cs frs = Except.ok out) :
    ∃ cps ctups, parse_col_paths cs = Except.ok cps ∧
      create_column_tuples df cps = Except.ok ctups ∧
      (resolveFeatureRows df frs ++ ctups ≠ [] →
        out.cols = resolveFeatureRows df frs ++ ctups) ∧
      (resolveFeatureRows df frs ++ ctups = [] → out.cols = df.cols) := by
  unfold render_filtered_dataframe at h
  rcases hcp : parse_col_paths cs with e | cps
  · rw [hcp, except_bind_error] at h
    exact absurd h (by simp)
  · rw [hcp, except_bind_ok] at h
    rcases hct : create_column_tuples df cps with e | ctups
    · rw [hct, except_bind_error] at h
      exact absurd h (by simp)
    · rw [hct, except_bind_ok] at h
      refine ⟨cps, ctups, by simp [hcp], by simp [hct], ?_, ?_⟩
      · intro hne
        rw [if_pos hne] at h
        have : selectColumns (filterRows df
            (create_row_condition df (parse_row_paths rs)))
            (resolveFeatureRows df frs ++ ctups) = out := by
          simpa [except_pure_eq_ok] using h
        rw [← this, selectColumns_cols]
      · intro heq
        rw [if_neg (by simp [heq])] at h
        have : filterRows df (create_row_condition df (parse_row_paths rs)) =
            out := by
          simpa [except_pure_eq_ok] using h
        rw [← this, filterRows_cols]

/-- C5, witness: the amended theorem applied at a concrete invocation. -/
theorem C5_witness :
    ∃ cps ctups,
      parse_col_paths "level_1: B" = Except.ok cps ∧
      create_column_tuples
        { cols := [["A", "H"], ["B", "H"]], rows := [[some "1", some "2"]] }
        cps = Except.ok ctups ∧
      (resolveFeatureRows
          { cols := [["A", "H"], ["B", "H"]], rows := [[some "1", some "2"]] }
          ["A"] ++ ctups ≠ [] →
        (DataFrame.mk [["A", "H"], ["B", "H"]] [[some "1", some "2"]]).cols =
          resolveFeatureRows
            { cols := [["A", "H"], ["B", "H"]], rows := [[some "1", some "2"]] }
            ["A"] ++ ctups) ∧
      (resolveFeatureRows
          { cols := [["A", "H"], ["B", "H"]], rows := [[some "1", some "2"]] }
          ["A"] ++ ctups = [] →
        (DataFrame.mk [["A", "H"], ["B", "H"]] [[some "1", some "2"]]).cols =
          (DataFrame.mk [["A", "H"], ["B", "H"]] [[some "1", some "2"]]).cols) :=
  C5_projection
    { cols := [["A", "H"], ["B", "H"]], rows := [[some "1", some "2"]] }
    "" "level_1: B" ["A"]
    { cols := [["A", "H"], ["B", "H"]], rows := [[some "1", some "2"]] }
    (by decide)

/-! ## C6: column-path matching -/

/-- The matching predicate as the claim words it (amended for out-of-depth
levels): every `level_i: value` constraint with `i` within the table's depth
must equal the key's label at index `i - 1`; constraints beyond the depth are
ignored, unspecified levels are wildcards. -/
def specColMatch (maxLevels : Int) (path : ColPath) (t : ColKey) : Bool :=
  path.all (fun e =>
    if e.1 ≤ maxLevels then decide (t.getD (e.1 - 1).toNat "" = e.2) else true)

theorem matchesColPath_ok (maxLevels : Int) (t : ColKey) (path : ColPath)
    (hlen : (t.length : Int) = maxLevels) (hpos : ∀ e ∈ path, 1 ≤ e.1) :
    matchesColPath maxLevels t path =
      Except.ok (specColMatch maxLevels path t) := by
  induction path with
  | nil => simp [matchesColPath, specColMatch]
  | cons e rest ih =>
    obtain ⟨ln, v⟩ := e
    have h1 : (1 : Int) ≤ ln := hpos (ln, v) (by simp)
    have ihr := ih (fun x hx => hpos x (by simp [hx]))
    by_cases hle : ln ≤ maxLevels
    · have hlt : ln - 1 < (t.length : Int) := by omega
      have hge : (0 : Int) ≤ ln - 1 := by omega
      have hidx : pyIndex t (ln - 1) = some (t.getD (ln - 1).toNat "") := by
        rw [pyIndex]
        simp only [if_neg (by omega : ¬ln - 1 < (0 : Int))]
        rw [if_pos ⟨hge, hlt⟩]
      simp only [matchesColPath, if_pos hle, if_pos hlt, hidx,
        specColMatch, List.all_cons]
      by_cases hv : v = t.getD (ln - 1).toNat ""
      · rw [if_neg (by simp [hv]), ihr]
        subst hv
        simp [specColMatch]
      · rw [if_pos hv, decide_eq_false (fun h => hv h.symm)]
        simp
    · simp only [matchesColPath, if_neg hle, specColMatch, List.all_cons,
        decide_eq_false hle]
      rw [ihr]
      simp [specColMatch]

theorem colsFold_ok (maxLevels : Int) (path : ColPath) (l : List ColKey)
    (hok : ∀ t ∈ l, matchesColPath maxLevels t path =
      Except.ok (specColMatch maxLevels path t)) (acc : List ColKey) :
    (l.foldlM (fun acc2 col_tuple => do
      let m ← matchesColPath maxLevels col_tuple path
      pure (if m then acc2 ++ [col_tuple] else acc2)) acc : Except String _) =
      Except.ok (acc ++ l.filter (fun t => specColMatch maxLevels path t)) := by
  induction l generalizing acc with
  | nil => simp; rfl
  | cons t ts ih =>
    rw [List.foldlM_cons, hok t (by simp)]
    by_cases hm : specColMatch maxLevels path t
    · rw [except_bind_ok]
      simpa [hm, List.filter_cons, except_pure_eq_ok] using
        ih (fun x hx => hok x (by simp [hx])) (acc ++ [t])
    · rw [except_bind_ok]
      simpa [hm, List.filter_cons, except_pure_eq_ok, Bool.of_not_eq_true hm]
        using ih (fun x hx => hok x (by simp [hx])) acc

/-- C6, counterexample: two identical parsed paths each match the single
column, which is therefore appended twice — the returned list contains
duplicate columns, refuting the no-duplicates part of the claim. -/
theorem C6_counterexample :
    create_column_tuples { cols := [["A", "X"]], rows := [] }
      [[((1 : Int), "A")], [((1 : Int), "A")]] =
      Except.ok [["A", "X"], ["A", "X"]] ∧
    ¬ ([["A", "X"], ["A", "X"]] : List ColKey).Nodup := by
  exact ⟨by decide, by decide⟩

/-- C6 (amended): for a table with uniform key depth and parsed Column Paths
with positive level numbers, `create_column_tuples` returns the
concatenation, over the paths in order, of the table-order list of columns
matching each path (constraints at levels beyond the table's depth are
ignored; unspecified levels are wildcards).  Within one path the matches keep
table order and are distinct, but a column matched by several paths appears
once per matching path, so the combined list may contain duplicates and need
not follow table order. -/
theorem C6_column_selection (df : DataFrame) (col_paths : List ColPath)
    (hlen : ∀ k ∈ df.cols, k.length = df.nlevels)
    (hpos : ∀ p ∈ col_paths, ∀ e ∈ p, 1 ≤ e.1) :
    create_column_tuples df col_paths =
      Except.ok (col_paths.flatMap (fun p =>
        df.cols.filter (fun t => specColMatch (df.nlevels : Int) p t))) := by
  by_cases hemp : col_paths.isEmpty
  · rw [create_column_tuples, if_pos hemp]
    rw [List.isEmpty_iff] at hemp
    simp [hemp]
  · rw [create_column_tuples, if_neg hemp]
    have hmain : ∀ (ps : List ColPath) (acc : List ColKey),
        (∀ p ∈ ps, ∀ e ∈ p, 1 ≤ e.1) →
        (ps.foldlM (fun acc path =>
          df.cols.foldlM (fun acc2 col_tuple => do
            let m ← matchesColPath (df.nlevels : Int) col_tuple path
            pure (if m then acc2 ++ [col_tuple] else acc2)) acc) acc :
            Except String _) =
          Except.ok (acc ++ ps.flatMap (fun p =>
            df.cols.filter (fun t => specColMatch (df.nlevels : Int) p t))) := by
      intro ps
      induction ps with
      | nil => intro acc _; simp; rfl
      | cons p rest ih =>
        intro acc hp
        rw [List.foldlM_cons]
        rw [colsFold_ok (df.nlevels : Int) p df.cols
          (fun t ht => matchesColPath_ok _ _ _
            (by rw [hlen t ht]) (hp p (by simp))) acc]
        rw [except_bind_ok]
        rw [ih (acc ++ df.cols.filter
          (fun t => specColMatch (df.nlevels : Int) p t))
          (fun x hx e he => hp x (by simp [hx]) e he)]
        simp
    exact hmain col_paths [] hpos

/-- C6, witness: the amended theorem applied at a concrete table and path
list. -/
theorem C6_witness :
    create_column_tuples
      { cols := [["A", "X"], ["A", "Y"], ["B", "X"]], rows := [] }
      [[((1 : Int), "A")], [((2 : Int), "X")]] =
      Except.ok ([[((1 : Int), "A")], [((2 : Int), "X")]].flatMap (fun p =>
        ([["A", "X"], ["A", "Y"], ["B", "X"]] : List ColKey).filter
          (fun t => specColMatch
            ((DataFrame.mk [["A", "X"], ["A", "Y"], ["B", "X"]] []).nlevels : Int)
            p t))) :=
  C6_column_selection
    { cols := [["A", "X"], ["A", "Y"], ["B", "X"]], rows := [] }
    [[((1 : Int), "A")], [((2 : Int), "X")]] (by decide) (by decide)


/-! ## C10: any-level name binding -/

theorem foldl_fun_congr {α β : Type} (f g : β → α → β) (l : List α) (b : β)
    (h : ∀ b x, f b x = g b x) : l.foldl f b = l.foldl g b := by
  induction l generalizing b with
  | nil => rfl
  | cons x xs ih => rw [List.foldl_cons, List.foldl_cons, h, ih]

theorem search_eq_find (df : DataFrame) (name : String) :
    search_column_in_multiindex df name =
      df.cols.find? (fun k => decide (name ∈ k)) := by
  rw [search_column_in_multiindex]
  induction df.cols with
  | nil => rfl
  | cons t ts ih =>
    rw [search_column_in_multiindex.go]
    by_cases hm : name ∈ t
    · rw [if_pos hm, List.find?_cons_of_pos _ (by simpa using hm)]
    · rw [if_neg hm, List.find?_cons_of_neg _ (by simpa using hm)]
      exact ih

theorem entryCond_none_of_no_col (df : DataFrame) (e : String × String)
    (h : search_column_in_multiindex df e.1 = none) :
    entryCond df e = none := by
  rw [entryCond]
  by_cases hu : pyLower e.2 = "undefined"
  · rw [if_pos hu]
  · rw [if_neg hu, h]

theorem conds_filter_eq (df : DataFrame) (p : RowPath) :
    (p.filter (fun e =>
      (search_column_in_multiindex df e.1).isSome)).foldl
      (optStep (entryCond df)) [] =
      p.foldl (optStep (entryCond df)) [] := by
  rw [foldl_append_filterMap, foldl_append_filterMap]
  simp only [List.nil_append]
  induction p with
  | nil => rfl
  | cons e rest ih =>
    by_cases hs : (search_column_in_multiindex df e.1).isSome
    · rw [List.filter_cons, if_pos (by simpa using hs),
        List.filterMap_cons, List.filterMap_cons, ih]
    · have hnone : search_column_in_multiindex df e.1 = none := by
        rcases hsc : search_column_in_multiindex df e.1 with _ | k
        · rfl
        · rw [hsc] at hs; simp at hs
      rw [List.filter_cons, if_neg (by simpa using hs),
        List.filterMap_cons, entryCond_none_of_no_col df e hnone, ih]

theorem pathCond_filter (df : DataFrame) (p : RowPath) :
    pathCond df (p.filter (fun e =>
      (search_column_in_multiindex df e.1).isSome)) = pathCond df p := by
  rw [pathCond, pathCond, conds_filter_eq]

/-- C10: `search_column_in_multiindex` returns the first column key in table
order that contains the name at any level of the tuple (`none` if no tuple
contains it); consequently `create_row_condition` is unchanged when the
entries whose feature resolves to no column are dropped (they are silently
skipped), and the feature-row context resolution of
`render_filtered_dataframe` binds each feature name to that first any-level
match and skips names with no match. -/
theorem C10_any_level_binding :
    (∀ (df : DataFrame) (name : String),
      search_column_in_multiindex df name =
        df.cols.find? (fun k => decide (name ∈ k))) ∧
    (∀ (df : DataFrame) (paths : List RowPath),
      create_row_condition df paths =
        create_row_condition df (paths.map (fun p =>
          p.filter (fun e => (search_column_in_multiindex df e.1).isSome)))) ∧
    (∀ (df : DataFrame) (feature_rows : List String),
      (∀ k ∈ df.cols, k ≠ []) →
      resolveFeatureRows df feature_rows =
        feature_rows.filterMap (fun f =>
          df.cols.find? (fun k => decide (f ∈ k)))) := by
  refine ⟨search_eq_find, ?_, ?_⟩
  · intro df paths
    rw [create_row_condition, create_row_condition]
    have hemp : (paths.map (fun p =>
        p.filter (fun e =>
          (search_column_in_multiindex df e.1).isSome))).isEmpty =
        paths.isEmpty := by
      rcases paths with _ | _ <;> rfl
    rw [hemp]
    by_cases he : paths.isEmpty
    · rw [if_pos he, if_pos he]
    · rw [if_neg he, if_neg he]
      rw [foldl_append_filterMap, foldl_append_filterMap]
      rw [List.filterMap_map]
      simp only [Function.comp_def]
      have : paths.filterMap (fun p => pathCond df
          (p.filter (fun e =>
            (search_column_in_multiindex df e.1).isSome))) =
          paths.filterMap (pathCond df) :=
        List.filterMap_congr (fun p _ => pathCond_filter df p)
      rw [this]
  · intro df feature_rows hne
    rw [resolveFeatureRows, foldl_append_filterMap]
    simp only [List.nil_append]
    refine List.filterMap_congr (fun f _ => ?_)
    rw [search_eq_find]
    rcases hf : df.cols.find? (fun k => decide (f ∈ k)) with _ | t
    · rfl
    · have ht : t ≠ [] := hne t (List.mem_of_find?_eq_some hf)
      simp [ht]

/-- C10, witness: the theorem instantiated at a concrete table (the
hypothesis of the third part discharged there). -/
theorem C10_witness :
    search_column_in_multiindex
      { cols := [["X", "A"], ["A", "Y"]], rows := [] } "A" =
      ([["X", "A"], ["A", "Y"]] : List ColKey).find?
        (fun k => decide ("A" ∈ k)) ∧
    resolveFeatureRows { cols := [["X", "A"], ["A", "Y"]], rows := [] }
        ["A", "Z"] =
      (["A", "Z"] : List String).filterMap (fun f =>
        ([["X", "A"], ["A", "Y"]] : List ColKey).find?
          (fun k => decide (f ∈ k))) :=
  ⟨C10_any_level_binding.1 { cols := [["X", "A"], ["A", "Y"]], rows := [] } "A",
   C10_any_level_binding.2.2 { cols := [["X", "A"], ["A", "Y"]], rows := [] }
     ["A", "Z"] (by decide)⟩

/-! ## C1: the row mask -/

/-- An entry contributes a constraint unless its value is (case-insensitively)
"Undefined". -/
abbrev specEntryActive (e : String × String) : Prop :=
  pyLower e.2 ≠ "undefined"

/-- The claim's per-entry condition: the row's cell in the column bound to the
feature equals one of the (comma-separated, trimmed) alternatives — or the
single value itself. -/
def specEntrySat (df : DataFrame) (r : Nat) (e : String × String) : Prop :=
  ∃ k, search_column_in_multiindex df e.1 = some k ∧
    ∃ s, (df.series k).getD r none = some s ∧ s ∈ splitValues e.2

/-- A path with at least one non-skipped entry. -/
def specPathActive (p : RowPath) : Prop := ∃ e ∈ p, specEntryActive e

/-- The AND over a path's non-skipped entries. -/
def specPathSat (df : DataFrame) (r : Nat) (p : RowPath) : Prop :=
  ∀ e ∈ p, specEntryActive e → specEntrySat df r e

/-- The claim's row mask: the OR over the paths that contribute a constraint
of the AND over their non-skipped entries; all-true when no path contributes
any constraint. -/
def specRowMask (df : DataFrame) (paths : List RowPath) (r : Nat) : Prop :=
  (∀ p ∈ paths, ¬ specPathActive p) ∨
    ∃ p ∈ paths, specPathActive p ∧ specPathSat df r p

theorem series_length (df : DataFrame) (k : ColKey) :
    (df.series k).length = df.rows.length := by
  simp [DataFrame.series, DataFrame.colAt]

theorem pyIsin_length (s : List (Option String)) (vs : List String) :
    (pyIsin s vs).length = s.length := by
  simp [pyIsin]

theorem getD_andSeries (a b : List Bool) (h : a.length = b.length) (r : Nat) :
    (andSeries a b).getD r false = (a.getD r false && b.getD r false) := by
  induction a generalizing b r with
  | nil =>
    cases b with
    | nil => simp [andSeries]
    | cons y ys => simp at h
  | cons x xs ih =>
    cases b with
    | nil => simp at h
    | cons y ys =>
      cases r with
      | zero => simp [andSeries]
      | succ n =>
        simp only [andSeries, List.zipWith_cons_cons, List.getD_cons_succ]
        exact ih ys (by simpa using h) n

theorem getD_orSeries (a b : List Bool) (h : a.length = b.length) (r : Nat) :
    (orSeries a b).getD r false = (a.getD r false || b.getD r false) := by
  induction a generalizing b r with
  | nil =>
    cases b with
    | nil => simp [orSeries]
    | cons y ys => simp at h
  | cons x xs ih =>
    cases b with
    | nil => simp at h
    | cons y ys =>
      cases r with
      | zero => simp [orSeries]
      | succ n =>
        simp only [orSeries, List.zipWith_cons_cons, List.getD_cons_succ]
        exact ih ys (by simpa using h) n

theorem andSeries_length (a b : List Bool) :
    (andSeries a b).length = min a.length b.length := by simp [andSeries]

theorem orSeries_length (a b : List Bool) :
    (orSeries a b).length = min a.length b.length := by simp [orSeries]

theorem foldl_andSeries_getD (cs : List (List Bool)) (c : List Bool) (N : Nat)
    (hc : c.length = N) (hcs : ∀ d ∈ cs, d.length = N) (r : Nat) :
    ((cs.foldl andSeries c).getD r false = true ↔
      (c.getD r false = true ∧ ∀ d ∈ cs, d.getD r false = true)) := by
  induction cs generalizing c with
  | nil => simp
  | cons d ds ih =>
    have hd : d.length = N := hcs d (by simp)
    have hlen : (andSeries c d).length = N := by
      rw [andSeries_length, hc, hd]; omega
    rw [List.foldl_cons,
      ih (andSeries c d) hlen (fun x hx => hcs x (by simp [hx]))]
    rw [getD_andSeries c d (by omega)]
    constructor
    · rintro ⟨hcd, hds⟩
      simp only [Bool.and_eq_true] at hcd
      exact ⟨hcd.1, fun x hx => by
        rcases List.mem_cons.mp hx with h | h
        · subst h; exact hcd.2
        · exact hds x h⟩
    · rintro ⟨hcv, hall⟩
      refine ⟨?_, fun x hx => hall x (by simp [hx])⟩
      rw [Bool.and_eq_true]
      exact ⟨hcv, hall d (by simp)⟩

theorem foldl_orSeries_getD (cs : List (List Bool)) (c : List Bool) (N : Nat)
    (hc : c.length = N) (hcs : ∀ d ∈ cs, d.length = N) (r : Nat) :
    ((cs.foldl orSeries c).getD r false = true ↔
      (c.getD r false = true ∨ ∃ d ∈ cs, d.getD r false = true)) := by
  induction cs generalizing c with
  | nil => simp
  | cons d ds ih =>
    have hd : d.length = N := hcs d (by simp)
    have hlen : (orSeries c d).length = N := by
      rw [orSeries_length, hc, hd]; omega
    rw [List.foldl_cons,
      ih (orSeries c d) hlen (fun x hx => hcs x (by simp [hx]))]
    rw [getD_orSeries c d (by omega)]
    simp only [Bool.or_eq_true, List.mem_cons]
    constructor
    · rintro ((h | h) | ⟨x, hx, hv⟩)
      · exact Or.inl h
      · exact Or.inr ⟨d, Or.inl rfl, h⟩
      · exact Or.inr ⟨x, Or.inr hx, hv⟩
    · rintro (h | ⟨x, (hx | hx), hv⟩)
      · exact Or.inl (Or.inl h)
      · subst hx; exact Or.inl (Or.inr hv)
      · exact Or.inr ⟨x, hx, hv⟩

theorem pyIsin_getD (s : List (Option String)) (vs : List String) (r : Nat) :
    ((pyIsin s vs).getD r false = true ↔
      ∃ x, s.getD r none = some x ∧ x ∈ vs) := by
  induction s generalizing r with
  | nil => simp [pyIsin]
  | cons cell rest ih =>
    cases r with
    | zero =>
      cases cell with
      | none => simp [pyIsin]
      | some x => simp [pyIsin, List.elem_iff]
    | succ n => simpa [pyIsin] using ih n

theorem entryCond_active (df : DataFrame) (e : String × String) (k : ColKey)
    (hact : specEntryActive e)
    (hk : search_column_in_multiindex df e.1 = some k) :
    entryCond df e = some (pyIsin (df.series k) (splitValues e.2)) := by
  rw [entryCond, if_neg (by simpa [specEntryActive] using hact), hk]

theorem entryCond_inactive (df : DataFrame) (e : String × String)
    (h : ¬ specEntryActive e) : entryCond df e = none := by
  rw [entryCond, if_pos (by simpa [specEntryActive] using h)]

theorem entryCond_length (df : DataFrame) (e : String × String)
    (c : List Bool) (h : entryCond df e = some c) :
    c.length = df.rows.length := by
  rw [entryCond] at h
  by_cases hu : pyLower e.2 = "undefined"
  · rw [if_pos hu] at h; cases h
  · rw [if_neg hu] at h
    rcases hs : search_column_in_multiindex df e.1 with _ | k
    · rw [hs] at h; cases h
    · rw [hs] at h
      cases h
      rw [pyIsin_length, series_length]

theorem pathCond_length (df : DataFrame) (p : RowPath) (pc : List Bool)
    (h : pathCond df p = some pc) : pc.length = df.rows.length := by
  rw [pathCond, foldl_append_filterMap] at h
  simp only [List.nil_append] at h
  rcases hf : p.filterMap (entryCond df) with _ | ⟨c, rest⟩
  · rw [hf] at h; cases h
  · rw [hf] at h
    cases h
    have hlens : ∀ d ∈ c :: rest, d.length = df.rows.length := by
      intro d hd
      rw [← hf] at hd
      obtain ⟨e, _, he⟩ := List.mem_filterMap.mp hd
      exact entryCond_length df e d he
    have : ∀ (ds : List (List Bool)) (c0 : List Bool),
        c0.length = df.rows.length →
        (∀ d ∈ ds, d.length = df.rows.length) →
        (ds.foldl andSeries c0).length = df.rows.length := by
      intro ds
      induction ds with
      | nil => intro c0 h0 _; exact h0
      | cons d rest2 ih2 =>
        intro c0 h0 hds
        rw [List.foldl_cons]
        refine ih2 (andSeries c0 d) ?_ (fun x hx => hds x (by simp [hx]))
        rw [andSeries_length, h0, hds d (by simp)]
        omega
    exact this rest c (hlens c (by simp)) (fun d hd => hlens d (by simp [hd]))

theorem pathCond_some_iff (df : DataFrame) (p : RowPath)
    (Hp : ∀ e ∈ p, specEntryActive e →
      (search_column_in_multiindex df e.1).isSome) :
    (pathCond df p).isSome ↔ specPathActive p := by
  rw [pathCond, foldl_append_filterMap]
  simp only [List.nil_append]
  rcases hf : p.filterMap (entryCond df) with _ | ⟨c, rest⟩
  · simp only [Option.isSome_none, Bool.false_eq_true, false_iff]
    rintro ⟨e, he, hea⟩
    obtain ⟨k, hk⟩ := Option.isSome_iff_exists.mp (Hp e he hea)
    have : pyIsin (df.series k) (splitValues e.2) ∈
        p.filterMap (entryCond df) :=
      List.mem_filterMap.mpr ⟨e, he, entryCond_active df e k hea hk⟩
    rw [hf] at this
    cases this
  · simp only [Option.isSome_some, true_iff]
    have : c ∈ p.filterMap (entryCond df) := by rw [hf]; simp
    obtain ⟨e, he, hec⟩ := List.mem_filterMap.mp this
    refine ⟨e, he, ?_⟩
    by_contra hact
    rw [entryCond_inactive df e (not_not_intro hact)] at hec
    cases hec

theorem pathCond_getD_iff (df : DataFrame) (p : RowPath) (pc : List Bool)
    (r : Nat)
    (Hp : ∀ e ∈ p, specEntryActive e →
      (search_column_in_multiindex df e.1).isSome)
    (h : pathCond df p = some pc) :
    (pc.getD r false = true ↔ specPathSat df r p) := by
  rw [pathCond, foldl_append_filterMap] at h
  simp only [List.nil_append] at h
  rcases hf : p.filterMap (entryCond df) with _ | ⟨c, rest⟩
  · rw [hf] at h; cases h
  · rw [hf] at h
    cases h
    have hlens : ∀ d ∈ c :: rest, d.length = df.rows.length := by
      intro d hd
      rw [← hf] at hd
      obtain ⟨e, _, he⟩ := List.mem_filterMap.mp hd
      exact entryCond_length df e d he
    rw [foldl_andSeries_getD rest c df.rows.length (hlens c (by simp))
      (fun d hd => hlens d (by simp [hd])) r]
    have hall : (∀ d ∈ c :: rest, d.getD r false = true) ↔
        (∀ e ∈ p, ∀ d, entryCond df e = some d → d.getD r false = true) := by
      constructor
      · intro hds e he d hed
        exact hds d (by rw [← hf]; exact List.mem_filterMap.mpr ⟨e, he, hed⟩)
      · intro hes d hd
        rw [← hf] at hd
        obtain ⟨e, he, hed⟩ := List.mem_filterMap.mp hd
        exact hes e he d hed
    constructor
    · rintro ⟨hcv, hrest⟩
      intro e he hea
      obtain ⟨k, hk⟩ := Option.isSome_iff_exists.mp (Hp e he hea)
      have hed := entryCond_active df e k hea hk
      have := hall.mp (fun d hd => by
        rcases List.mem_cons.mp hd with h' | h'
        · subst h'; exact hcv
        · exact hrest d h') e he _ hed
      rw [pyIsin_getD] at this
      obtain ⟨x, hx, hxv⟩ := this
      exact ⟨k, hk, x, hx, hxv⟩
    · intro hsat
      have : ∀ e ∈ p, ∀ d, entryCond df e = some d →
          d.getD r false = true := by
        intro e he d hed
        by_cases hea : specEntryActive e
        · obtain ⟨k, hk⟩ := Option.isSome_iff_exists.mp (Hp e he hea)
          rw [entryCond_active df e k hea hk] at hed
          cases hed
          obtain ⟨k', hk', x, hx, hxv⟩ := hsat e he hea
          rw [hk] at hk'
          cases hk'
          rw [pyIsin_getD]
          exact ⟨x, hx, hxv⟩
        · rw [entryCond_inactive df e hea] at hed
          cases hed
      have h2 := hall.mpr this
      exact ⟨h2 c (by simp), fun d hd => h2 d (by simp [hd])⟩

theorem getD_replicate_true (n r : Nat) (h : r < n) :
    (List.replicate n true).getD r false = true := by
  induction n generalizing r with
  | zero => omega
  | succ m ih =>
    cases r with
    | zero => rfl
    | succ s =>
      rw [List.replicate_succ, List.getD_cons_succ]
      exact ih s (by omega)

/-- C1: for every row in range, the mask built by `create_row_condition` is
true exactly when the claim's OR-of-ANDs holds: OR over the paths that
contribute a constraint of the AND over their entries, an entry whose value
is (case-insensitively) "Undefined" being skipped, a comma-separated value
matching when the cell equals any trimmed alternative, any other value
requiring equality; if no path contributes any constraint the mask is
all-true.  Hypothesis: every non-skipped feature name resolves to a column
(C10 settles the unresolvable case). -/
theorem C1_row_mask (df : DataFrame) (paths : List RowPath)
    (Hres : ∀ p ∈ paths, ∀ e ∈ p, specEntryActive e →
      (search_column_in_multiindex df e.1).isSome)
    (r : Nat) (hr : r < df.rows.length) :
    ((create_row_condition df paths).getD r false = true ↔
      specRowMask df paths r) := by
  rw [create_row_condition]
  by_cases hemp : paths.isEmpty
  · rw [if_pos hemp]
    rw [List.isEmpty_iff] at hemp
    subst hemp
    rw [getD_replicate_true df.rows.length r hr]
    simp [specRowMask]
  · rw [if_neg hemp, foldl_append_filterMap]
    simp only [List.nil_append]
    rcases hpcs : paths.filterMap (pathCond df) with _ | ⟨c, rest⟩
    · rw [getD_replicate_true df.rows.length r hr]
      simp only [true_iff]
      left
      intro p hp hact
      have hsome := (pathCond_some_iff df p (Hres p hp)).mpr hact
      rw [List.forall_none_of_filterMap_eq_nil hpcs p hp] at hsome
      simp at hsome
    · have hlenc : ∀ d ∈ c :: rest, d.length = df.rows.length := by
        intro d hd
        rw [← hpcs] at hd
        obtain ⟨p, _, hpd⟩ := List.mem_filterMap.mp hd
        exact pathCond_length df p d hpd
      rw [foldl_orSeries_getD rest c df.rows.length (hlenc c (by simp))
        (fun d hd => hlenc d (by simp [hd])) r]
      have hex : (c.getD r false = true ∨ ∃ d ∈ rest, d.getD r false = true) ↔
          ∃ pc ∈ paths.filterMap (pathCond df), pc.getD r false = true := by
        rw [hpcs, List.exists_mem_cons_iff]
      rw [hex]
      constructor
      · rintro ⟨pc, hpc, hv⟩
        obtain ⟨p, hp, hppc⟩ := List.mem_filterMap.mp hpc
        right
        refine ⟨p, hp, ?_, ?_⟩
        · exact (pathCond_some_iff df p (Hres p hp)).mp (by simp [hppc])
        · exact (pathCond_getD_iff df p pc r (Hres p hp) hppc).mp hv
      · rintro (hall | ⟨p, hp, hact, hsat⟩)
        · exfalso
          have hcmem : c ∈ paths.filterMap (pathCond df) := by rw [hpcs]; simp
          obtain ⟨p, hp, hppc⟩ := List.mem_filterMap.mp hcmem
          exact hall p hp
            ((pathCond_some_iff df p (Hres p hp)).mp (by simp [hppc]))
        · obtain ⟨pc, hppc⟩ := Option.isSome_iff_exists.mp
            ((pathCond_some_iff df p (Hres p hp)).mpr hact)
          refine ⟨pc, List.mem_filterMap.mpr ⟨p, hp, hppc⟩, ?_⟩
          exact (pathCond_getD_iff df p pc r (Hres p hp) hppc).mpr hsat

/-- C1, witness: the theorem applied at a concrete table, path list and row,
with all hypotheses discharged and both sides of the equivalence realised. -/
theorem C1_witness :
    ((create_row_condition
      { cols := [["City", "H"], ["District", "H"]],
        rows := [[some "Hanoi", some "CauGiay"],
                 [some "HCMC", some "District 1"]] }
      [[("City", "Hanoi"), ("District", "Undefined")]]).getD 0 false = true ↔
      specRowMask
        { cols := [["City", "H"], ["District", "H"]],
          rows := [[some "Hanoi", some "CauGiay"],
                   [some "HCMC", some "District 1"]] }
        [[("City", "Hanoi"), ("District", "Undefined")]] 0) :=
  C1_row_mask
    { cols := [["City", "H"], ["District", "H"]],
      rows := [[some "Hanoi", some "CauGiay"],
               [some "HCMC", some "District 1"]] }
    [[("City", "Hanoi"), ("District", "Undefined")]]
    (by decide) 0 (by decide)

/-! ## C8: forward-fill completeness -/

/-- The cell of row `r` at column position `j`. -/
def cellAt (df : DataFrame) (r j : Nat) : Option String :=
  (df.rows.getD r []).getD j none

theorem getD_map_of_lt {α β : Type} (f : α → β) (l : List α) (i : Nat)
    (h : i < l.length) (da : α) (db : β) :
    (l.map f).getD i db = f (l.getD i da) := by
  induction l generalizing i with
  | nil => simp at h
  | cons x xs ih =>
    cases i with
    | zero => rfl
    | succ n =>
      simp only [List.map_cons, List.getD_cons_succ]
      exact ih n (by simpa using h)

theorem getD_zipWith_of_lt {α β γ : Type} (f : α → β → γ) (as : List α)
    (bs : List β) (i : Nat) (ha : i < as.length) (hb : i < bs.length)
    (da : α) (db : β) (dc : γ) :
    (List.zipWith f as bs).getD i dc = f (as.getD i da) (bs.getD i db) := by
  induction as generalizing bs i with
  | nil => simp at ha
  | cons x xs ih =>
    cases bs with
    | nil => simp at hb
    | cons y ys =>
      cases i with
      | zero => rfl
      | succ n =>
        simp only [List.zipWith_cons_cons, List.getD_cons_succ]
        exact ih ys n (by simpa using ha) (by simpa using hb)

theorem colAt_length (df : DataFrame) (j : Nat) :
    (df.colAt j).length = df.rows.length := by simp [DataFrame.colAt]

theorem colAt_getD (df : DataFrame) (r j : Nat) (hr : r < df.rows.length) :
    (df.colAt j).getD r none = cellAt df r j := by
  rw [DataFrame.colAt, getD_map_of_lt _ _ r hr []]
  rfl

theorem level0Matches_mem (df : DataFrame) (n : String) (j : Nat) :
    j ∈ df.level0Matches n ↔
      (j < df.cols.length ∧ (df.cols.getD j []).head? = some n) := by
  simp [DataFrame.level0Matches, List.mem_filter, List.mem_range]

theorem find?_eq_head?_filter {α : Type} (p : α → Bool) (l : List α) :
    l.find? p = (l.filter p).head? := by
  induction l with
  | nil => rfl
  | cons x xs ih =>
    by_cases h : p x
    · rw [List.find?_cons_of_pos _ h, List.filter_cons, if_pos h]
      rfl
    · rw [List.find?_cons_of_neg _ (by simpa using h), List.filter_cons,
        if_neg (by simpa using h)]
      exact ih

theorem findLevel0_eq_head (df : DataFrame) (n : String) :
    df.findLevel0 n = (df.level0Matches n).head? :=
  find?_eq_head?_filter _ _

theorem setWhere_cols (df : DataFrame) (name : String) (cond : List Bool)
    (fill : String) : (df.setWhere name cond fill).cols = df.cols := rfl

theorem setCol_cols (df : DataFrame) (j : Nat) (vals : List (Option String)) :
    (df.setCol j vals).cols = df.cols := rfl

theorem setWhere_rows_length (df : DataFrame) (name : String)
    (cond : List Bool) (fill : String) (hcl : df.rows.length ≤ cond.length) :
    (df.setWhere name cond fill).rows.length = df.rows.length := by
  simp [DataFrame.setWhere]
  omega

theorem setCol_rows_length (df : DataFrame) (j : Nat)
    (vals : List (Option String)) (hv : df.rows.length ≤ vals.length) :
    (df.setCol j vals).rows.length = df.rows.length := by
  simp [DataFrame.setCol]
  omega

theorem setWhere_cell (df : DataFrame) (name : String) (cond : List Bool)
    (fill : String) (r j : Nat) (hr : r < df.rows.length)
    (hcl : df.rows.length ≤ cond.length) :
    cellAt (df.setWhere name cond fill) r j =
      if cond.getD r false = true then
        (if j < (df.rows.getD r []).length then
          (if (df.cols.getD j []).head? = some name then some fill
          else cellAt df r j)
        else none)
      else cellAt df r j := by
  rw [cellAt, DataFrame.setWhere]
  simp only
  rw [getD_zipWith_of_lt _ _ _ r hr (by omega) [] false]
  cases hcond : cond.getD r false
  · simp [cellAt]
  · simp only [if_pos rfl, if_true]
    by_cases hj : j < (df.rows.getD r []).length
    · rw [if_pos hj]
      rw [getD_map_of_lt _ _ j (by simpa using hj) 0]
      have hrange : (List.range (df.rows.getD r []).length).getD j 0 = j := by
        rw [List.getD_eq_getElem _ _ (by simpa using hj)]
        simp
      rw [hrange]
      by_cases hn : (df.cols.getD j []).head? = some name
      · rw [if_pos hn, if_pos hn]
      · rw [if_neg hn, if_neg hn]
        rfl
    · rw [if_neg hj]
      rw [List.getD_eq_default]
      simp only [List.length_map, List.length_range]
      omega

theorem getD_set {α : Type} (l : List α) (i i' : Nat) (v : α) (d : α) :
    (l.set i v).getD i' d =
      if i = i' ∧ i < l.length then v else l.getD i' d := by
  induction l generalizing i i' with
  | nil => simp
  | cons x xs ih =>
    cases i with
    | zero =>
      cases i' with
      | zero => simp
      | succ m => simp
    | succ n =>
      cases i' with
      | zero => simp
      | succ m =>
        simp only [List.set_cons_succ, List.getD_cons_succ, ih n m]
        by_cases h : n = m ∧ n < xs.length
        · rw [if_pos h, if_pos (by simp only [List.length_cons]; omega)]
        · rw [if_neg h, if_neg (by simp only [List.length_cons]; omega)]

theorem setCol_cell (df : DataFrame) (j : Nat) (vals : List (Option String))
    (r j' : Nat) (hr : r < df.rows.length) (hv : df.rows.length ≤ vals.length) :
    cellAt (df.setCol j vals) r j' =
      if j = j' ∧ j < (df.rows.getD r []).length then vals.getD r none
      else cellAt df r j' := by
  rw [cellAt, DataFrame.setCol]
  simp only
  rw [getD_zipWith_of_lt _ _ _ r hr (by omega) [] none]
  exact getD_set _ j j' _ none

theorem cellAt_oob (df : DataFrame) (r j : Nat) (hr : df.rows.length ≤ r) :
    cellAt df r j = none := by
  rw [cellAt, List.getD_eq_default _ _ hr]
  rfl

theorem setWhere_row_length (df : DataFrame) (name : String)
    (cond : List Bool) (fill : String) (i : Nat) (hi : i < df.rows.length)
    (hcl : df.rows.length ≤ cond.length) :
    ((df.setWhere name cond fill).rows.getD i []).length =
      (df.rows.getD i []).length := by
  rw [DataFrame.setWhere]
  simp only
  rw [getD_zipWith_of_lt _ _ _ i hi (by omega) [] false]
  cases cond.getD i false <;> simp

theorem ffillList_length (l : List (Option String)) (last : Option String) :
    (ffillList l last).length = l.length := by
  induction l generalizing last with
  | nil => rfl
  | cons c cs ih =>
    cases c <;> simp [ffillList, ih]

theorem ffillList_getD_mono (l : List (Option String)) (last : Option String)
    (r : Nat) (h : (l.getD r none).isSome) :
    ((ffillList l last).getD r none).isSome := by
  induction l generalizing last r with
  | nil => simp at h
  | cons c cs ih =>
    cases r with
    | zero =>
      cases c with
      | none => simp at h
      | some v => simp [ffillList]
    | succ m =>
      cases c with
      | none =>
        simp only [ffillList, List.getD_cons_succ] at h ⊢
        exact ih _ m h
      | some v =>
        simp only [ffillList, List.getD_cons_succ] at h ⊢
        exact ih _ m h

theorem ffillList_all_some (l : List (Option String)) (last : Option String)
    (h : last.isSome) : ∀ r < l.length,
      ((ffillList l last).getD r none).isSome := by
  induction l generalizing last with
  | nil => intro r hr; simp at hr
  | cons c cs ih =>
    intro r hr
    cases r with
    | zero =>
      cases c with
      | none => simpa [ffillList] using h
      | some v => simp [ffillList]
    | succ m =>
      cases c with
      | none =>
        simp only [ffillList, List.getD_cons_succ]
        exact ih last h m (by simpa using hr)
      | some v =>
        simp only [ffillList, List.getD_cons_succ]
        exact ih (some v) (by simp) m (by simpa using hr)

theorem ffillList_head_some (l : List (Option String))
    (h0 : (l.getD 0 none).isSome) : ∀ r < l.length,
      ((ffillList l none).getD r none).isSome := by
  cases l with
  | nil => intro r hr; simp at hr
  | cons c cs =>
    rcases c with _ | v
    · simp at h0
    · intro r hr
      cases r with
      | zero => simp [ffillList]
      | succ m =>
        simp only [ffillList, List.getD_cons_succ]
        exact ffillList_all_some cs (some v) (by simp) m (by simpa using hr)

/-- Row well-formedness: every data row has one cell per column. -/
abbrev wfRows (df : DataFrame) : Prop :=
  ∀ i < df.rows.length, (df.rows.getD i []).length = df.cols.length

theorem level0Matches_congr (df₁ df₂ : DataFrame) (n : String)
    (h : df₁.cols = df₂.cols) :
    df₁.level0Matches n = df₂.level0Matches n := by
  simp [DataFrame.level0Matches, h]

theorem setCol_row_length (df : DataFrame) (j : Nat)
    (vals : List (Option String)) (i : Nat) (hi : i < df.rows.length)
    (hv : df.rows.length ≤ vals.length) :
    ((df.setCol j vals).rows.getD i []).length =
      (df.rows.getD i []).length := by
  rw [DataFrame.setCol]
  simp only
  rw [getD_zipWith_of_lt _ _ _ i hi (by omega) [] none]
  simp

theorem fillStep_facts (df : DataFrame) (fv n₀ n₁ : String) (jc jn : Nat)
    (hwf : wfRows df)
    (hm0 : df.level0Matches n₀ = [jc]) (hm1 : df.level0Matches n₁ = [jn]) :
    ∃ df', fillStep fv df n₀ n₁ = Except.ok df' ∧
      df'.cols = df.cols ∧ df'.rows.length = df.rows.length ∧ wfRows df' ∧
      (∀ r j, (cellAt df r j).isSome → (cellAt df' r j).isSome) ∧
      ((0 < df.rows.length → (cellAt df 0 jc).isSome) →
        0 < df.rows.length → (cellAt df' 0 jn).isSome) := by
  have hf0 : df.findLevel0 n₀ = some jc := by rw [findLevel0_eq_head, hm0]; rfl
  have hf1 : df.findLevel0 n₁ = some jn := by rw [findLevel0_eq_head, hm1]; rfl
  have hjn : jn < df.cols.length ∧ (df.cols.getD jn []).head? = some n₁ :=
    (level0Matches_mem df n₁ jn).mp (by rw [hm1]; simp)
  set cond := List.zipWith (fun a b => a.isSome && b.isNone)
    (df.colAt jc) (df.colAt jn) with hcond
  have hcl : cond.length = df.rows.length := by
    rw [hcond, List.length_zipWith, colAt_length, colAt_length]
    omega
  refine ⟨df.setWhere n₁ cond fv, ?_, rfl, ?_, ?_, ?_, ?_⟩
  · rw [fillStep, hf0, hf1]
  · exact setWhere_rows_length df n₁ cond fv (by omega)
  · intro i hi
    rw [setWhere_rows_length df n₁ cond fv (by omega)] at hi
    rw [setWhere_row_length df n₁ cond fv i hi (by omega), setWhere_cols]
    exact hwf i hi
  · intro r j hs
    by_cases hr : r < df.rows.length
    · rw [setWhere_cell df n₁ cond fv r j hr (by omega)]
      by_cases hcv : cond.getD r false = true
      · rw [if_pos hcv]
        by_cases hj : j < (df.rows.getD r []).length
        · rw [if_pos hj]
          by_cases hh : (df.cols.getD j []).head? = some n₁
          · rw [if_pos hh]; rfl
          · rw [if_neg hh]; exact hs
        · exfalso
          rw [cellAt, List.getD_eq_default _ _ (by omega)] at hs
          simp at hs
      · rw [if_neg hcv]; exact hs
    · exfalso
      rw [cellAt_oob df r j (by omega)] at hs
      simp at hs
  · intro hc hr0
    rw [setWhere_cell df n₁ cond fv 0 jn hr0 (by omega)]
    have hcond0 : cond.getD 0 false =
        ((cellAt df 0 jc).isSome && (cellAt df 0 jn).isNone) := by
      rw [hcond, getD_zipWith_of_lt _ _ _ 0 (by rw [colAt_length]; omega)
        (by rw [colAt_length]; omega) none none,
        colAt_getD df 0 jc hr0, colAt_getD df 0 jn hr0]
    rcases hcell : cellAt df 0 jn with _ | v
    · have hct : cond.getD 0 false = true := by
        rw [hcond0, hcell]
        simp [hc hr0]
      rw [if_pos hct, if_pos (by rw [hwf 0 hr0]; exact hjn.1), if_pos hjn.2]
      rfl
    · have hcf : cond.getD 0 false = false := by
        rw [hcond0, hcell]; simp
      rw [if_neg (by rw [hcf]; simp)]
      rfl

theorem fill_phase : ∀ (names : List String) (df : DataFrame), wfRows df →
    (∀ n ∈ names, ∃ j, df.level0Matches n = [j]) →
    (∀ n ∈ names.take 1, ∀ j, df.level0Matches n = [j] →
      0 < df.rows.length → (cellAt df 0 j).isSome) →
    ∃ df₁, fill_undefined_sequentially df names "Undefined" = Except.ok df₁ ∧
      df₁.cols = df.cols ∧ df₁.rows.length = df.rows.length ∧ wfRows df₁ ∧
      (∀ r j, (cellAt df r j).isSome → (cellAt df₁ r j).isSome) ∧
      (∀ n ∈ names, ∀ j, df.level0Matches n = [j] →
        0 < df₁.rows.length → (cellAt df₁ 0 j).isSome) := by
  intro names
  induction names with
  | nil =>
    intro df hwf _ _
    exact ⟨df, rfl, rfl, rfl, hwf, fun r j h => h, by simp⟩
  | cons n₀ rest ih =>
    intro df hwf huniq hhead
    cases rest with
    | nil =>
      refine ⟨df, rfl, rfl, rfl, hwf, fun r j h => h, ?_⟩
      intro n hn j hj hr0
      rw [List.mem_singleton] at hn
      subst hn
      exact hhead n (by simp) j hj hr0
    | cons n₁ rest2 =>
      obtain ⟨jc, hjc⟩ := huniq n₀ (by simp)
      obtain ⟨jn, hjn⟩ := huniq n₁ (by simp)
      obtain ⟨df', hstep, hcols', hlen', hwf', hmono', hfill'⟩ :=
        fillStep_facts df "Undefined" n₀ n₁ jc jn hwf hjc hjn
      have hmatch' : ∀ n, df'.level0Matches n = df.level0Matches n :=
        fun n => level0Matches_congr df' df n hcols'
      obtain ⟨df₁, hfold, hcols₁, hlen₁, hwf₁, hmono₁, hfill₁⟩ :=
        ih df' hwf'
          (fun n hn => by rw [hmatch']; exact huniq n (by simp [hn]))
          (by
            intro n hn j hj hr0
            simp only [List.take_succ_cons, List.take_zero,
              List.mem_singleton] at hn
            subst hn
            rw [hmatch'] at hj
            rw [hjn] at hj
            have hjj : j = jn := by simpa using hj.symm
            subst hjj
            refine hfill' ?_ (by omega)
            intro h0
            exact hhead n₀ (by simp) jc hjc h0)
      refine ⟨df₁, ?_, by rw [hcols₁, hcols'], by rw [hlen₁, hlen'], hwf₁,
        fun r j h => hmono₁ r j (hmono' r j h), ?_⟩
      · rw [fill_undefined_sequentially, List.tail_cons, List.zip_cons_cons,
          List.foldlM_cons, hstep, except_bind_ok]
        exact hfold
      · intro n hn j hj hr0
        rcases List.mem_cons.mp hn with hn0 | hnr
        · subst hn0
          have hjj : j = jc := by
            rw [hjc] at hj
            simpa using hj.symm
          subst hjj
          have h0 : 0 < df.rows.length := by omega
          exact hmono₁ 0 j (hmono' 0 j (hhead n (by simp) j hjc h0))
        · exact hfill₁ n hnr j (by rw [hmatch']; exact hj) hr0

theorem ffillColumns_facts (df : DataFrame) (n : String) (j : Nat)
    (hwf : wfRows df) (hm : df.level0Matches n = [j]) :
    ∃ d', ffillColumns df n = Except.ok d' ∧
      d'.cols = df.cols ∧ d'.rows.length = df.rows.length ∧ wfRows d' ∧
      (∀ r j', (cellAt df r j').isSome → (cellAt d' r j').isSome) ∧
      ((0 < df.rows.length → (cellAt df 0 j).isSome) →
        ∀ r < df.rows.length, (cellAt d' r j).isSome) := by
  have hjc : j < df.cols.length ∧ (df.cols.getD j []).head? = some n :=
    (level0Matches_mem df n j).mp (by rw [hm]; simp)
  set vals := ffillList (df.colAt j) none with hvals
  have hvl : vals.length = df.rows.length := by
    rw [hvals, ffillList_length, colAt_length]
  refine ⟨df.setCol j vals, ?_, rfl, ?_, ?_, ?_, ?_⟩
  · rw [ffillColumns, hm]
    simp
  · exact setCol_rows_length df j vals (by omega)
  · intro i hi
    rw [setCol_rows_length df j vals (by omega)] at hi
    rw [setCol_row_length df j vals i hi (by omega), setCol_cols]
    exact hwf i hi
  · intro r j' hs
    by_cases hr : r < df.rows.length
    · rw [setCol_cell df j vals r j' hr (by omega)]
      by_cases hc : j = j' ∧ j < (df.rows.getD r []).length
      · rw [if_pos hc]
        rw [hvals]
        refine ffillList_getD_mono _ none r ?_
        rw [colAt_getD df r j hr]
        rw [hc.1]
        exact hs
      · rw [if_neg hc]; exact hs
    · exfalso
      rw [cellAt_oob df r j' (by omega)] at hs
      simp at hs
  · intro hc r hr
    rw [setCol_cell df j vals r j hr (by omega)]
    rw [if_pos ⟨rfl, by rw [hwf r hr]; exact hjc.1⟩]
    rw [hvals]
    refine ffillList_head_some _ ?_ r (by rw [colAt_length]; omega)
    rw [colAt_getD df 0 j (by omega)]
    exact hc (by omega)

theorem ffill_phase : ∀ (names : List String) (df : DataFrame), wfRows df →
    (∀ n ∈ names, ∃ j, df.level0Matches n = [j]) →
    ∃ df₂, forward_fill_column_nans df names = Except.ok df₂ ∧
      df₂.cols = df.cols ∧ df₂.rows.length = df.rows.length ∧
      (∀ r j, (cellAt df r j).isSome → (cellAt df₂ r j).isSome) ∧
      (∀ n ∈ names, ∀ j, df.level0Matches n = [j] →
        (0 < df.rows.length → (cellAt df 0 j).isSome) →
        ∀ r < df₂.rows.length, (cellAt df₂ r j).isSome) := by
  intro names
  induction names with
  | nil =>
    intro df hwf _
    exact ⟨df, rfl, rfl, rfl, fun r j h => h, by simp⟩
  | cons n rest ih =>
    intro df hwf huniq
    obtain ⟨j, hj⟩ := huniq n (by simp)
    obtain ⟨d', hstep, hcols', hlen', hwf', hmono', hfill'⟩ :=
      ffillColumns_facts df n j hwf hj
    obtain ⟨df₂, hfold, hcols₂, hlen₂, hmono₂, hfill₂⟩ :=
      ih d' hwf' (fun m hm => by
        rw [level0Matches_congr d' df m hcols']
        exact huniq m (by simp [hm]))
    refine ⟨df₂, ?_, by rw [hcols₂, hcols'], by rw [hlen₂, hlen'],
      fun r j' h => hmono₂ r j' (hmono' r j' h), ?_⟩
    · rw [forward_fill_column_nans, List.foldlM_cons, hstep, except_bind_ok]
      exact hfold
    · intro m hm j' hj' hc r hr
      rcases List.mem_cons.mp hm with hm0 | hmr
      · subst hm0
        have hjj : j' = j := by
          rw [hj] at hj'
          simpa using hj'.symm
        subst hjj
        exact hmono₂ r j' (hfill' hc r (by omega))
      · refine hfill₂ m hmr j'
          (by rw [level0Matches_congr d' df m hcols']; exact hj')
          (fun h0 => hmono' 0 j' (hc (by omega))) r hr

/-- C8, counterexample: a single feature row column whose only cell is null.
Operation 2 has no adjacent pair to act on, and forward fill cannot fill a
leading null, so after both operations the column still contains a null. -/
theorem C8_counterexample :
    fill_undefined_sequentially
      { cols := [["A", "Header"]], rows := [[none]] } ["A"] "Undefined" =
      Except.ok { cols := [["A", "Header"]], rows := [[none]] } ∧
    forward_fill_column_nans
      { cols := [["A", "Header"]], rows := [[none]] } ["A"] =
      Except.ok { cols := [["A", "Header"]], rows := [[none]] } ∧
    cellAt { cols := [["A", "Header"]], rows := [[none]] } 0 0 = none :=
  ⟨by decide, by decide, by decide⟩

/-- C8 (amended): for a well-formed table whose Feature Row Columns each
resolve to exactly one physical column, if the first Feature Row Column's
first-row cell is non-null, then after Operation 2
(`fill_undefined_sequentially`) followed by Operation 3
(`forward_fill_column_nans`) no Feature Row Column contains a null value.
(Without the first-cell condition, leading nulls survive both operations.) -/
theorem C8_fill_completeness (df df₁ df₂ : DataFrame) (names : List String)
    (hwf : wfRows df)
    (huniq : ∀ n ∈ names, ∃ j, df.level0Matches n = [j])
    (hhead : ∀ n ∈ names.take 1, ∀ j, df.level0Matches n = [j] →
      0 < df.rows.length → (cellAt df 0 j).isSome)
    (h1 : fill_undefined_sequentially df names "Undefined" = Except.ok df₁)
    (h2 : forward_fill_column_nans df₁ names = Except.ok df₂) :
    ∀ n ∈ names, ∀ j ∈ df₂.level0Matches n, ∀ r < df₂.rows.length,
      (cellAt df₂ r j).isSome := by
  obtain ⟨df₁', he1, hcols₁, hlen₁, hwf₁, hmono₁, hfill₁⟩ :=
    fill_phase names df hwf huniq hhead
  rw [h1] at he1
  obtain rfl : df₁ = df₁' := by
    have := Except.ok.inj he1
    exact this
  obtain ⟨df₂', he2, hcols₂, hlen₂, hmono₂, hfill₂⟩ :=
    ffill_phase names df₁ hwf₁
      (fun n hn => by
        rw [level0Matches_congr df₁ df n hcols₁]
        exact huniq n hn)
  rw [h2] at he2
  obtain rfl : df₂ = df₂' := Except.ok.inj he2
  intro n hn j hjmem r hr
  obtain ⟨jn, hjn⟩ := huniq n hn
  have hmem2 : df₂.level0Matches n = df.level0Matches n :=
    level0Matches_congr df₂ df n (by rw [hcols₂, hcols₁])
  have hjj : j = jn := by
    rw [hmem2, hjn] at hjmem
    simpa using hjmem
  subst hjj
  refine hfill₂ n hn j
    (by rw [level0Matches_congr df₁ df n hcols₁]; exact hjn)
    (fun h0 => hfill₁ n hn j hjn h0) r hr

/-- C8, witness: the amended theorem applied at a concrete two-column table
whose first column's first cell is non-null, the conclusion instantiated at
column "A" (physical column 0) and row 1. -/
theorem C8_witness :
    (cellAt (DataFrame.mk [["A", "H"], ["B", "H"]]
      [[some "x", some "Undefined"], [some "x", some "y"]]) 1 0).isSome :=
  C8_fill_completeness
    (DataFrame.mk [["A", "H"], ["B", "H"]] [[some "x", none], [none, some "y"]])
    (DataFrame.mk [["A", "H"], ["B", "H"]]
      [[some "x", some "Undefined"], [none, some "y"]])
    (DataFrame.mk [["A", "H"], ["B", "H"]]
      [[some "x", some "Undefined"], [some "x", some "y"]])
    ["A", "B"] (by decide)
    (by
      intro n hn
      rcases List.mem_cons.mp hn with h | h
      · exact ⟨0, by subst h; decide⟩
      · rcases List.mem_cons.mp h with h2 | h2
        · exact ⟨1, by subst h2; decide⟩
        · simp at h2)
    (by
      intro n hn j hj h0
      simp only [List.take_succ_cons, List.take_zero,
        List.mem_singleton] at hn
      subst hn
      have hA : (DataFrame.mk [["A", "H"], ["B", "H"]]
          [[some "x", none], [none, some "y"]]).level0Matches "A" = [0] := by
        decide
      rw [hA] at hj
      have hj0 : j = 0 := by simpa using hj.symm
      subst hj0
      decide)
    (by decide) (by decide) "A" (by decide) 0 (by decide) 1 (by decide)

/-! ## C7: redundant-Undefined pruning -/

mutual

/-- The redundancy predicate exactly as the claim words it: redundant means
empty, or a list containing only the sentinel, or a mapping whose every key
is the sentinel and whose every child is itself recursively redundant. -/
def specRedundant (label : String) : PyTree → Bool
  | .plist items => items.isEmpty || items.all (fun item => item = label)
  | .pmap entries => entries.isEmpty || specRedundantEntries label entries

/-- "Every key is the sentinel and every child is recursively redundant." -/
def specRedundantEntries (label : String) :
    List (String × PyTree) → Bool
  | [] => true
  | (k, v) :: rest =>
    (decide (k = label) && specRedundant label v) &&
      specRedundantEntries label rest

end

theorem redundantEntries_congr (label : String) :
    ∀ entries : List (String × PyTree),
      (∀ e ∈ entries, _is_redundant_undefined_child e.2 label =
        specRedundant label e.2) →
      redundantEntries entries label = specRedundantEntries label entries := by
  intro entries h
  induction entries with
  | nil => rfl
  | cons e rest ih =>
    obtain ⟨k, v⟩ := e
    have hv : _is_redundant_undefined_child v label = specRedundant label v :=
      h (k, v) (by simp)
    rw [redundantEntries, specRedundantEntries]
    by_cases hk : k = label
    · rw [if_neg (by simpa using hk), hv]
      cases hsv : specRedundant label v
      · simp
      · simpa [hk] using ih (fun y hy => h y (by simp [hy]))
    · rw [if_pos (by simpa using hk)]
      simp [hk]

theorem redundant_eq_aux : ∀ (n : Nat) (t : PyTree), sizeOf t ≤ n →
    ∀ label, _is_redundant_undefined_child t label = specRedundant label t := by
  intro n
  induction n with
  | zero =>
    intro t ht
    exfalso
    cases t <;> simp_arith at ht
  | succ m ih =>
    intro t ht label
    cases t with
    | plist items =>
      cases items <;>
        simp [_is_redundant_undefined_child, specRedundant]
    | pmap entries =>
      cases hes : entries with
      | nil => simp [_is_redundant_undefined_child, specRedundant]
      | cons e rest =>
        rw [_is_redundant_undefined_child, specRedundant]
        subst hes
        simp only [List.isEmpty_cons, Bool.false_eq_true, if_false,
          Bool.false_or]
        refine redundantEntries_congr label _ (fun x hx => ?_)
        refine ih x.2 ?_ label
        have h1 : sizeOf x < sizeOf (e :: rest) := List.sizeOf_lt_of_mem hx
        have h2 : sizeOf (PyTree.pmap (e :: rest)) = 1 + sizeOf (e :: rest) := by
          simp
        have h3 : sizeOf x.2 < sizeOf x := by
          obtain ⟨a, b⟩ := x
          simp only [Prod.mk.sizeOf_spec]
          omega
        omega

theorem mapM_congr_except {α β : Type} (f g : α → Except String β)
    (l : List α) (h : ∀ x ∈ l, f x = g x) : l.mapM f = l.mapM g := by
  induction l with
  | nil => rfl
  | cons x xs ih =>
    rw [List.mapM_cons, List.mapM_cons, h x (by simp),
      ih (fun y hy => h y (by simp [hy]))]

/-- The recursive build with the claim-worded pruning predicate in place of
the source's `_is_redundant_undefined_child` (used to state C7). -/
def specConvertBuild (undefined_label : String) :
    List String → DataFrame → Except String PyTree
  | [], _ => Except.ok (.pmap [])
  | name :: rest, df =>
    match df.findLevel0 name with
    | none => Except.ok (.pmap [])
    | some j =>
      if df.rows.isEmpty then Except.ok (.pmap [])
      else do
        let series := df.colAt j
        let unique_vals := pyUnique (series.filterMap id)
        let temp ← unique_vals.mapM (fun val => do
          let child ← specConvertBuild undefined_label rest
            (filterRows df (series.map (fun c => c = some val)))
          pure (val, child))
        let final := temp.filter (fun e =>
          !(decide (e.1 = undefined_label) &&
            specRedundant undefined_label e.2))
        if !final.isEmpty && final.all (fun e => e.2.isEmptyDict) then
          pure (.plist (final.map (fun e => e.1)))
        else pure (.pmap final)

/-- `convert_df_rows_to_nested_dict` with the claim-worded pruning rule. -/
def spec_convert_df_rows (df_input : DataFrame)
    (hierarchy_columns_list : List String) (undefined_label : String) :
    Except String PyTree :=
  if hierarchy_columns_list.isEmpty then Except.ok (.pmap [])
  else specConvertBuild undefined_label hierarchy_columns_list df_input

theorem convertBuild_eq_spec (label : String) :
    ∀ (cols : List String) (df : DataFrame),
      convertRowsBuild label cols df = specConvertBuild label cols df := by
  intro cols
  induction cols with
  | nil => intro df; rfl
  | cons name rest ih =>
    intro df
    rw [convertRowsBuild, specConvertBuild]
    rcases df.findLevel0 name with _ | j
    · rfl
    · simp only
      by_cases hemp : df.rows.isEmpty
      · rw [if_pos hemp, if_pos hemp]
      · rw [if_neg hemp, if_neg hemp]
        have hmm : (pyUnique ((df.colAt j).filterMap id)).mapM (fun val => do
            let child ← convertRowsBuild label rest
              (filterRows df ((df.colAt j).map (fun c => c = some val)))
            pure (val, child)) =
            (pyUnique ((df.colAt j).filterMap id)).mapM (fun val => do
            let child ← specConvertBuild label rest
              (filterRows df ((df.colAt j).map (fun c => c = some val)))
            pure ((val, child) : String × PyTree)) := by
          refine mapM_congr_except _ _ _ (fun val _ => ?_)
          rw [ih]
        rw [hmm]
        rcases hres : (pyUnique ((df.colAt j).filterMap id)).mapM (fun val => do
            let child ← specConvertBuild label rest
              (filterRows df ((df.colAt j).map (fun c => c = some val)))
            pure ((val, child) : String × PyTree)) with e | temp
        · rw [hres, except_bind_error, except_bind_error]
        · rw [hres, except_bind_ok, except_bind_ok]
          have hfil : temp.filter (fun e =>
              !(decide (e.1 = label) &&
                _is_redundant_undefined_child e.2 label)) =
              temp.filter (fun e =>
              !(decide (e.1 = label) && specRedundant label e.2)) := by
            refine List.filter_congr (fun x _ => ?_)
            rw [redundant_eq_aux (sizeOf x.2) x.2 le_rfl label]
          rw [hfil]

/-- C7: at every depth of the Row-Tree Builder an entry of the raw mapping is
dropped if and only if its key equals the sentinel and its child structure is
recursively redundant in the claim's sense (empty, or a list containing only
the sentinel, or a mapping whose every key is the sentinel with recursively
redundant children): the source predicate coincides with the claim's
predicate, and the whole builder is unchanged when its pruning rule is
replaced by the claim's rule. -/
theorem C7_redundant_pruning :
    (∀ (t : PyTree) (label : String),
      _is_redundant_undefined_child t label = specRedundant label t) ∧
    (∀ (df : DataFrame) (cols : List String) (label : String),
      convert_df_rows_to_nested_dict df cols label =
        spec_convert_df_rows df cols label) := by
  constructor
  · intro t label
    exact redundant_eq_aux (sizeOf t) t le_rfl label
  · intro df cols label
    rw [convert_df_rows_to_nested_dict, spec_convert_df_rows]
    by_cases hemp : cols.isEmpty
    · rw [if_pos hemp, if_pos hemp]
    · rw [if_neg hemp, if_neg hemp, convertBuild_eq_spec]

/-! ## C2: header matrix coverage -/

/-- How many cells of a list cover a grid point. -/
def countCover (cells : List HeaderCell) (r c : Nat) : Nat :=
  (cells.filter (fun e => coversCell e r c)).length

theorem coversCell_iff (e : HeaderCell) (r c : Nat) :
    coversCell e r c = true ↔
      (e.level ≤ r ∧ r < e.level + e.rowspan ∧ e.position ≤ c ∧
        c < e.position + e.colspan) := by
  simp [coversCell, and_assoc]

theorem countCover_cons (e : HeaderCell) (cells : List HeaderCell)
    (r c : Nat) :
    countCover (e :: cells) r c =
      (if coversCell e r c then 1 else 0) + countCover cells r c := by
  by_cases h : coversCell e r c <;>
    simp [countCover, List.filter_cons, h, Nat.add_comm]

theorem countCover_eq_zero (cells : List HeaderCell) (r c : Nat)
    (h : ∀ e ∈ cells, ¬ coversCell e r c = true) : countCover cells r c = 0 := by
  simp only [countCover, List.length_eq_zero]
  exact List.filter_eq_nil_iff.mpr h

theorem rowspanAt_eq (cols : List ColKey) (level i : Nat)
    (hl : level < nlevelsOf cols) (hi : i < cols.length) :
    rowspanAt cols level i =
      calculate_rowspan cols level i (normLabel (pyLabel cols level i)) := by
  rw [rowspanAt, rowspanMatrix]
  rw [getD_map_of_lt _ _ level (by simpa using hl) 0]
  have h1 : (List.range (nlevelsOf cols)).getD level 0 = level := by
    rw [List.getD_eq_getElem _ _ (by simpa using hl)]
    simp
  rw [h1]
  rw [getD_map_of_lt _ _ i (by simpa using hi) 0]
  have h2 : (List.range cols.length).getD i 0 = i := by
    rw [List.getD_eq_getElem _ _ (by simpa using hi)]
    simp
  rw [h2]

theorem calculate_rowspan_bounds (cols : List ColKey) (level i : Nat)
    (cur : String) (hl : level < nlevelsOf cols) :
    1 ≤ calculate_rowspan cols level i cur ∧
      (calculate_rowspan cols level i cur = 1 ∨
        level + calculate_rowspan cols level i cur = nlevelsOf cols) := by
  rw [calculate_rowspan]
  by_cases h1 : level = nlevelsOf cols - 1
  · rw [if_pos h1]
    exact ⟨le_rfl, Or.inl rfl⟩
  · rw [if_neg h1]
    dsimp only
    split
    · exact ⟨by omega, Or.inr (by omega)⟩
    · exact ⟨le_rfl, Or.inl rfl⟩

theorem consecEnd_ge (cols : List ColKey) (level : Nat) (cur : String)
    (covered : List (Nat × Nat)) :
    ∀ fuel ce, ce ≤ consecEndAux cols level cur covered fuel ce := by
  intro fuel
  induction fuel with
  | zero => intro ce; rw [consecEndAux]
  | succ f ih =>
    intro ce
    rw [consecEndAux]
    split
    · exact le_trans (by omega) (ih (ce + 1))
    · exact le_rfl

theorem consecEnd_le (cols : List ColKey) (level : Nat) (cur : String)
    (covered : List (Nat × Nat)) :
    ∀ fuel ce, ce ≤ cols.length →
      consecEndAux cols level cur covered fuel ce ≤ cols.length := by
  intro fuel
  induction fuel with
  | zero => intro ce h; rw [consecEndAux]; exact h
  | succ f ih =>
    intro ce h
    rw [consecEndAux]
    split
    · next hcond => exact ih (ce + 1) (by omega)
    · exact h

theorem consecEnd_not_covered (cols : List ColKey) (level : Nat)
    (cur : String) (covered : List (Nat × Nat)) :
    ∀ fuel ce j, ce ≤ j →
      j < consecEndAux cols level cur covered fuel ce →
      (level, j) ∉ covered := by
  intro fuel
  induction fuel with
  | zero =>
    intro ce j h1 h2
    rw [consecEndAux] at h2
    omega
  | succ f ih =>
    intro ce j h1 h2
    rw [consecEndAux] at h2
    by_cases hcond : ce < cols.length ∧ pyLabel cols level ce = cur ∧
        (level, ce) ∉ covered
    · rw [if_pos hcond] at h2
      by_cases hj : j = ce
      · subst hj; exact hcond.2.2
      · exact ih (ce + 1) j (by omega) h2
    · rw [if_neg hcond] at h2
      omega

theorem colspan_pos (cols : List ColKey) (level i : Nat) (cur : String)
    (covered : List (Nat × Nat)) :
    1 ≤ calculate_intelligent_colspan cols level i cur covered := by
  have hge := consecEnd_ge cols level cur covered cols.length (i + 1)
  rw [calculate_intelligent_colspan]
  dsimp only
  split_ifs <;> omega

theorem colspan_le (cols : List ColKey) (level i : Nat) (cur : String)
    (covered : List (Nat × Nat)) (hi : i < cols.length) :
    i + calculate_intelligent_colspan cols level i cur covered ≤
      cols.length := by
  have hge := consecEnd_ge cols level cur covered cols.length (i + 1)
  have hle := consecEnd_le cols level cur covered cols.length (i + 1)
    (by omega)
  rw [calculate_intelligent_colspan]
  dsimp only
  split_ifs <;> omega

theorem colspan_not_covered (cols : List ColKey) (level i : Nat)
    (cur : String) (covered : List (Nat × Nat)) :
    ∀ j, i < j →
      j < i + calculate_intelligent_colspan cols level i cur covered →
      (level, j) ∉ covered := by
  have hge := consecEnd_ge cols level cur covered cols.length (i + 1)
  intro j hj1 hj2
  rw [calculate_intelligent_colspan] at hj2
  dsimp only at hj2
  revert hj2
  split_ifs <;> intro hj2 <;>
    first
      | omega
      | exact consecEnd_not_covered cols level cur covered cols.length
          (i + 1) j (by omega) (by omega)

theorem mem_marksList (cols : List ColKey) (cell : HeaderCell) (r c : Nat) :
    ((r, c) ∈ marksList cols cell) ↔
      (cell.level + 1 ≤ r ∧ r < cell.level + 1 + (cell.rowspan - 1) ∧
        r < nlevelsOf cols ∧ cell.position ≤ c ∧
        c < cell.position + cell.colspan) := by
  simp only [marksList, List.mem_flatMap, List.mem_filter,
    List.mem_range'_1, List.mem_map, Prod.mk.injEq, decide_eq_true_eq]
  constructor
  · rintro ⟨a, ⟨⟨ha1, ha2⟩, ha3⟩, b, ⟨hb1, hb2⟩, heq1, heq2⟩
    subst heq1; subst heq2
    exact ⟨ha1, ha2, ha3, hb1, hb2⟩
  · rintro ⟨h1, h2, h3, h4, h5⟩
    exact ⟨r, ⟨⟨h1, h2⟩, h3⟩, c, ⟨h4, h5⟩, rfl, rfl⟩

theorem countCover_append (a b : List HeaderCell) (r c : Nat) :
    countCover (a ++ b) r c = countCover a r c + countCover b r c := by
  simp [countCover, List.filter_append]

theorem mkHeaderCell_level (cols : List ColKey) (level i : Nat)
    (covered : List (Nat × Nat)) :
    (mkHeaderCell cols level i covered).level = level := rfl

theorem mkHeaderCell_position (cols : List ColKey) (level i : Nat)
    (covered : List (Nat × Nat)) :
    (mkHeaderCell cols level i covered).position = i := rfl

theorem mkHeaderCell_colspan (cols : List ColKey) (level i : Nat)
    (covered : List (Nat × Nat)) :
    (mkHeaderCell cols level i covered).colspan =
      calculate_intelligent_colspan cols level i
        (normLabel (pyLabel cols level i)) covered := rfl

theorem mkHeaderCell_rowspan (cols : List ColKey) (level i : Nat)
    (covered : List (Nat × Nat)) :
    (mkHeaderCell cols level i covered).rowspan = rowspanAt cols level i := rfl

theorem scan_main (cols : List ColKey) (level : Nat)
    (hl : level < nlevelsOf cols) :
    ∀ fuel i covered, cols.length ≤ fuel + i →
      (∀ e ∈ scanCells cols level fuel i covered,
        e.level = level ∧ 1 ≤ e.colspan ∧ i ≤ e.position ∧
          e.position + e.colspan ≤ cols.length ∧ 1 ≤ e.rowspan ∧
          (e.rowspan = 1 ∨ level + e.rowspan = nlevelsOf cols) ∧
          ∀ c, e.position ≤ c → c < e.position + e.colspan →
            (level, c) ∉ covered) ∧
      (∀ c, i ≤ c → c < cols.length →
        countCover (scanCells cols level fuel i covered) level c =
          if (level, c) ∈ covered then 0 else 1) ∧
      (∀ r c, level < r →
        countCover (scanCells cols level fuel i covered) r c =
          if ∃ e ∈ scanCells cols level fuel i covered,
              (r, c) ∈ marksList cols e then 1 else 0) := by
  intro fuel
  induction fuel with
  | zero =>
    intro i covered hfi
    rw [scanCells]
    refine ⟨?_, ?_, ?_⟩
    · intro e he
      simp at he
    · intro c hc1 hc2
      exact absurd hc2 (by omega)
    · intro r c hr
      simp [countCover]
  | succ f ih =>
    intro i covered hfi
    by_cases hin : i < cols.length
    · by_cases hcov : (level, i) ∈ covered
      · have hunf : scanCells cols level (f + 1) i covered =
            scanCells cols level f (i + 1) covered := by
          rw [scanCells, if_pos hin, if_pos hcov]
        obtain ⟨ih1, ih2, ih3⟩ := ih (i + 1) covered (by omega)
        rw [hunf]
        refine ⟨?_, ?_, ?_⟩
        · intro e he
          obtain ⟨h1, h2, h3, h4, h5, h6, h7⟩ := ih1 e he
          exact ⟨h1, h2, by omega, h4, h5, h6, h7⟩
        · intro c hc1 hc2
          rcases Nat.lt_or_ge c (i + 1) with hlt | hge
          · have hci : c = i := by omega
            subst hci
            rw [if_pos hcov]
            apply countCover_eq_zero
            intro e he hcv
            obtain ⟨-, -, h3, -, -, -, -⟩ := ih1 e he
            rw [coversCell_iff] at hcv
            omega
          · exact ih2 c hge hc2
        · exact ih3
      · set e0 := mkHeaderCell cols level i covered with hE0
        have hlev : e0.level = level := by rw [hE0, mkHeaderCell_level]
        have hpos : e0.position = i := by rw [hE0, mkHeaderCell_position]
        have hcs1 : 1 ≤ e0.colspan := by
          rw [hE0, mkHeaderCell_colspan]
          exact colspan_pos cols level i _ covered
        have hcs2 : i + e0.colspan ≤ cols.length := by
          rw [hE0, mkHeaderCell_colspan]
          exact colspan_le cols level i _ covered hin
        have hrs : 1 ≤ e0.rowspan ∧
            (e0.rowspan = 1 ∨ level + e0.rowspan = nlevelsOf cols) := by
          rw [hE0, mkHeaderCell_rowspan, rowspanAt_eq cols level i hl hin]
          exact calculate_rowspan_bounds cols level i _ hl
        have hrange : ∀ c, i ≤ c → c < i + e0.colspan →
            (level, c) ∉ covered := by
          intro c hc1 hc2
          rcases Nat.lt_or_ge i c with hlt | hge
          · rw [hE0, mkHeaderCell_colspan] at hc2
            exact colspan_not_covered cols level i _ covered c hlt hc2
          · have hci : c = i := by omega
            subst hci
            exact hcov
        have hunf : scanCells cols level (f + 1) i covered =
            e0 :: scanCells cols level f (i + e0.colspan)
              (covered ++ marksList cols e0) := by
          rw [hE0, scanCells, if_pos hin, if_neg hcov]
        obtain ⟨ih1, ih2, ih3⟩ := ih (i + e0.colspan)
          (covered ++ marksList cols e0) (by omega)
        rw [hunf]
        refine ⟨?_, ?_, ?_⟩
        · intro e he
          rcases List.mem_cons.mp he with heq | hmem
          · subst heq
            refine ⟨hlev, hcs1, ?_, ?_, hrs.1, hrs.2, ?_⟩
            · rw [hpos]
            · rw [hpos]; exact hcs2
            · intro c hc1 hc2
              rw [hpos] at hc1 hc2
              exact hrange c hc1 hc2
          · obtain ⟨h1, h2, h3, h4, h5, h6, h7⟩ := ih1 e hmem
            refine ⟨h1, h2, by omega, h4, h5, h6, ?_⟩
            intro c hc1 hc2 hmem2
            exact h7 c hc1 hc2 (List.mem_append_left _ hmem2)
        · intro c hc1 hc2
          rw [countCover_cons]
          by_cases hcr : c < i + e0.colspan
          · have hcovers : coversCell e0 level c = true := by
              rw [coversCell_iff, hlev, hpos]
              exact ⟨le_rfl, by omega, hc1, hcr⟩
            rw [if_pos hcovers, if_neg (hrange c hc1 hcr)]
            have hzero : countCover (scanCells cols level f (i + e0.colspan)
                (covered ++ marksList cols e0)) level c = 0 := by
              apply countCover_eq_zero
              intro e he hcv
              obtain ⟨-, -, h3, -, -, -, -⟩ := ih1 e he
              rw [coversCell_iff] at hcv
              omega
            rw [hzero]
          · push_neg at hcr
            have hnc : ¬ coversCell e0 level c = true := by
              rw [coversCell_iff, hlev, hpos]
              intro hco
              omega
            rw [if_neg hnc, ih2 c hcr hc2]
            have hmm : ((level, c) ∈ covered ++ marksList cols e0) ↔
                (level, c) ∈ covered := by
              rw [List.mem_append]
              constructor
              · rintro (h | h)
                · exact h
                · rw [mem_marksList, hlev] at h
                  exact absurd h.1 (by omega)
              · exact Or.inl
            by_cases hcv : (level, c) ∈ covered
            · rw [if_pos (hmm.mpr hcv), if_pos hcv]
            · rw [if_neg (fun h => hcv (hmm.mp h)), if_neg hcv]
        · intro r c hr
          rw [countCover_cons]
          have hiff : coversCell e0 r c = true ↔
              (r, c) ∈ marksList cols e0 := by
            rw [coversCell_iff, mem_marksList, hlev, hpos]
            constructor
            · rintro ⟨h1, h2, h3, h4⟩
              have hrsL : level + e0.rowspan = nlevelsOf cols := by
                rcases hrs.2 with h | h
                · omega
                · exact h
              exact ⟨by omega, by omega, by omega, h3, h4⟩
            · rintro ⟨h1, h2, h3, h4, h5⟩
              exact ⟨by omega, by omega, h4, h5⟩
          by_cases hc0 : coversCell e0 r c = true
          · rw [if_pos hc0]
            have hcc : c < i + e0.colspan := by
              rw [coversCell_iff, hpos] at hc0
              exact hc0.2.2.2
            have hzero : countCover (scanCells cols level f (i + e0.colspan)
                (covered ++ marksList cols e0)) r c = 0 := by
              apply countCover_eq_zero
              intro e he hcv
              obtain ⟨-, -, h3, -, -, -, -⟩ := ih1 e he
              rw [coversCell_iff] at hcv
              omega
            rw [hzero]
            rw [if_pos ⟨e0, List.mem_cons_self _ _, hiff.mp hc0⟩]
          · rw [if_neg hc0, ih3 r c hr]
            by_cases hex : ∃ e ∈ scanCells cols level f (i + e0.colspan)
                (covered ++ marksList cols e0), (r, c) ∈ marksList cols e
            · obtain ⟨e, he, hm⟩ := hex
              rw [if_pos ⟨e, he, hm⟩,
                if_pos ⟨e, List.mem_cons_of_mem _ he, hm⟩]
            · rw [if_neg hex]
              have hnone : ¬ ∃ e ∈ e0 :: scanCells cols level f
                  (i + e0.colspan) (covered ++ marksList cols e0),
                  (r, c) ∈ marksList cols e := by
                rintro ⟨e, he, hm⟩
                rcases List.mem_cons.mp he with heq | hmem
                · subst heq
                  exact hc0 (hiff.mpr hm)
                · exact hex ⟨e, hmem, hm⟩
              rw [if_neg hnone]
    · have hunf : scanCells cols level (f + 1) i covered = [] := by
        rw [scanCells, if_neg hin]
      rw [hunf]
      refine ⟨?_, ?_, ?_⟩
      · intro e he
        simp at he
      · intro c hc1 hc2
        exact absurd hc2 (by omega)
      · intro r c hr
        simp [countCover]

theorem scanCov_mem (cols : List ColKey) (level : Nat) :
    ∀ fuel i covered r c,
      ((r, c) ∈ scanCov cols level fuel i covered) ↔
        ((r, c) ∈ covered ∨
          ∃ e ∈ scanCells cols level fuel i covered,
            (r, c) ∈ marksList cols e) := by
  intro fuel
  induction fuel with
  | zero =>
    intro i covered r c
    rw [scanCov, scanCells]
    simp
  | succ f ih =>
    intro i covered r c
    by_cases hin : i < cols.length
    · by_cases hcov : (level, i) ∈ covered
      · have h1 : scanCov cols level (f + 1) i covered =
            scanCov cols level f (i + 1) covered := by
          rw [scanCov, if_pos hin, if_pos hcov]
        have h2 : scanCells cols level (f + 1) i covered =
            scanCells cols level f (i + 1) covered := by
          rw [scanCells, if_pos hin, if_pos hcov]
        rw [h1, h2, ih]
      · have h1 : scanCov cols level (f + 1) i covered =
            scanCov cols level f
              (i + (mkHeaderCell cols level i covered).colspan)
              (covered ++
                marksList cols (mkHeaderCell cols level i covered)) := by
          rw [scanCov, if_pos hin, if_neg hcov]
        have h2 : scanCells cols level (f + 1) i covered =
            mkHeaderCell cols level i covered ::
              scanCells cols level f
                (i + (mkHeaderCell cols level i covered).colspan)
                (covered ++
                  marksList cols (mkHeaderCell cols level i covered)) := by
          rw [scanCells, if_pos hin, if_neg hcov]
        rw [h1, h2, ih]
        constructor
        · rintro (h | ⟨e, he, hm⟩)
          · rcases List.mem_append.mp h with h2 | h2
            · exact Or.inl h2
            · exact Or.inr ⟨_, List.mem_cons_self _ _, h2⟩
          · exact Or.inr ⟨e, List.mem_cons_of_mem _ he, hm⟩
        · rintro (h | ⟨e, he, hm⟩)
          · exact Or.inl (List.mem_append_left _ h)
          · rcases List.mem_cons.mp he with heq | hmem
            · subst heq
              exact Or.inl (List.mem_append_right _ hm)
            · exact Or.inr ⟨e, hmem, hm⟩
    · have h1 : scanCov cols level (f + 1) i covered = covered := by
        rw [scanCov, if_neg hin]
      have h2 : scanCells cols level (f + 1) i covered = [] := by
        rw [scanCells, if_neg hin]
      rw [h1, h2]
      simp

theorem scanCells_level (cols : List ColKey) (level : Nat) :
    ∀ fuel i covered e, e ∈ scanCells cols level fuel i covered →
      e.level = level := by
  intro fuel
  induction fuel with
  | zero =>
    intro i covered e he
    rw [scanCells] at he
    simp at he
  | succ f ih =>
    intro i covered e he
    by_cases hin : i < cols.length
    · by_cases hcov : (level, i) ∈ covered
      · have hunf : scanCells cols level (f + 1) i covered =
            scanCells cols level f (i + 1) covered := by
          rw [scanCells, if_pos hin, if_pos hcov]
        rw [hunf] at he
        exact ih _ _ e he
      · have hunf : scanCells cols level (f + 1) i covered =
            mkHeaderCell cols level i covered ::
              scanCells cols level f
                (i + (mkHeaderCell cols level i covered).colspan)
                (covered ++
                  marksList cols (mkHeaderCell cols level i covered)) := by
          rw [scanCells, if_pos hin, if_neg hcov]
        rw [hunf] at he
        rcases List.mem_cons.mp he with heq | hmem
        · subst heq
          rw [mkHeaderCell_level]
        · exact ih _ _ e hmem
    · have hunf : scanCells cols level (f + 1) i covered = [] := by
        rw [scanCells, if_neg hin]
      rw [hunf] at he
      simp at he

theorem buildLevels_level_ge (cols : List ColKey) :
    ∀ k level covered e, e ∈ (buildLevels cols k level covered).flatten →
      level ≤ e.level := by
  intro k
  induction k with
  | zero =>
    intro level covered e he
    rw [buildLevels] at he
    simp at he
  | succ n ih =>
    intro level covered e he
    rw [buildLevels, List.flatten_cons] at he
    rcases List.mem_append.mp he with h | h
    · exact le_of_eq (scanCells_level cols level _ _ _ e h).symm
    · exact le_trans (by omega) (ih (level + 1) _ e h)

theorem buildLevels_cover (cols : List ColKey) :
    ∀ k level covered,
      level + k = nlevelsOf cols →
      (∀ r c r', (r, c) ∈ covered → level ≤ r → level ≤ r' →
        r' < nlevelsOf cols → (r', c) ∈ covered) →
      ∀ r c, level ≤ r → r < nlevelsOf cols → c < cols.length →
        countCover (buildLevels cols k level covered).flatten r c =
          if (r, c) ∈ covered then 0 else 1 := by
  intro k
  induction k with
  | zero =>
    intro level covered hk hinv r c hr1 hr2 hc
    exfalso
    omega
  | succ n ih =>
    intro level covered hk hinv r c hr1 hr2 hc
    have hl : level < nlevelsOf cols := by omega
    obtain ⟨s1, s2, s3⟩ := scan_main cols level hl cols.length 0 covered
      (by omega)
    rw [buildLevels, List.flatten_cons, countCover_append]
    rcases Nat.eq_or_lt_of_le hr1 with hreq | hrgt
    · subst hreq
      have hrest0 : countCover (buildLevels cols n (level + 1)
          (scanCov cols level cols.length 0 covered)).flatten level c = 0 := by
        apply countCover_eq_zero
        intro e he hcv
        have hge := buildLevels_level_ge cols n (level + 1) _ e he
        rw [coversCell_iff] at hcv
        omega
      rw [s2 c (Nat.zero_le c) hc, hrest0, Nat.add_zero]
    · have hinv2 : ∀ a b a', (a, b) ∈ scanCov cols level cols.length 0 covered →
          level + 1 ≤ a → level + 1 ≤ a' → a' < nlevelsOf cols →
          (a', b) ∈ scanCov cols level cols.length 0 covered := by
        intro a b a2 hmem ha ha2 ha3
        rw [scanCov_mem] at hmem ⊢
        rcases hmem with h | ⟨e, he, hm⟩
        · exact Or.inl (hinv a b a2 h (by omega) (by omega) ha3)
        · right
          refine ⟨e, he, ?_⟩
          obtain ⟨hel, hcs, hpe, hpcs, hrs1, hrs2, hrng⟩ := s1 e he
          rw [mem_marksList] at hm ⊢
          have hL : e.level + e.rowspan = nlevelsOf cols := by
            rcases hrs2 with h1 | h1
            · exfalso
              omega
            · omega
          exact ⟨by omega, by omega, by omega, hm.2.2.2.1, hm.2.2.2.2⟩
      have hrest := ih (level + 1) (scanCov cols level cols.length 0 covered)
        (by omega) hinv2 r c (by omega) hr2 hc
      rw [hrest, s3 r c hrgt]
      by_cases hcv : (r, c) ∈ covered
      · have hM : ¬ ∃ e ∈ scanCells cols level cols.length 0 covered,
            (r, c) ∈ marksList cols e := by
          rintro ⟨e, he, hm⟩
          obtain ⟨hel, hcs, hpe, hpcs, hrs1, hrs2, hrng⟩ := s1 e he
          rw [mem_marksList] at hm
          have hlc : (level, c) ∈ covered :=
            hinv r c level hcv (by omega) le_rfl hl
          exact hrng c hm.2.2.2.1 hm.2.2.2.2 hlc
        have hscv : (r, c) ∈ scanCov cols level cols.length 0 covered :=
          (scanCov_mem cols level cols.length 0 covered r c).mpr (Or.inl hcv)
        rw [if_neg hM, if_pos hscv, if_pos hcv]
      · by_cases hM : ∃ e ∈ scanCells cols level cols.length 0 covered,
            (r, c) ∈ marksList cols e
        · have hscv : (r, c) ∈ scanCov cols level cols.length 0 covered :=
            (scanCov_mem cols level cols.length 0 covered r c).mpr (Or.inr hM)
          rw [if_pos hM, if_pos hscv, if_neg hcv]
        · have hscv : (r, c) ∉ scanCov cols level cols.length 0 covered := by
            rw [scanCov_mem]
            rintro (h | h)
            · exact hcv h
            · exact hM h
          rw [if_neg hM, if_neg hscv, if_neg hcv]

/-- C2: for every column axis, the header matrix produced by
`build_header_matrix` covers each `(level, column_position)` pair with
`level` below the number of header levels and `column_position` below the
number of columns exactly once: exactly one emitted cell's
`[position, position + colspan) x [level, level + rowspan)` range contains
the pair — no gaps and no double coverage. -/
theorem C2_header_coverage (cols : List ColKey) (level pos : Nat)
    (hl : level < nlevelsOf cols) (hp : pos < cols.length) :
    coverCount (build_header_matrix cols) level pos = 1 := by
  have h := buildLevels_cover cols (nlevelsOf cols) 0 []
    (by omega)
    (by intro r c r2 hmem _ _ _; simp at hmem)
    level pos (Nat.zero_le _) hl hp
  rw [if_neg (by simp)] at h
  exact h

/-- Witness for C2: the theorem applied to the concrete column axis
`[["A", "Header"], ["B", "x"], ["B", "y"]]` at level 1, position 0, the
hypotheses discharged there. -/
theorem C2_witness :
    1 < nlevelsOf [["A", "Header"], ["B", "x"], ["B", "y"]] ∧
      0 < ([["A", "Header"], ["B", "x"], ["B", "y"]] : List ColKey).length ∧
      coverCount (build_header_matrix
        [["A", "Header"], ["B", "x"], ["B", "y"]]) 1 0 = 1 :=
  ⟨by decide, by decide,
    C2_header_coverage [["A", "Header"], ["B", "x"], ["B", "y"]] 1 0
      (by decide) (by decide)⟩
